/-
Verification development for the GRASS dynamic balanced k-d tree
(src/lib/btree2/kdtree.h).  The repository under study ships only the
public header; the implementation body (kdtree.c) is not part of the
source tree, so every operation below is modelled from the natural
language specification (spec.md), faithful to its words.

Modelling conventions, fixed once for the whole file:
* Coordinates (C `double`) are modelled as exact integers `Int`; the
  specification only ever uses ordering, subtraction and squaring of
  coordinates, which `Int` supports exactly.
* The split-dimension schedule is the spec's default round-robin
  schedule: a node at depth `dep` splits on dimension `dep % ndims`
  (spec section 3, `dimension_schedule`).  Split dimension and depth are
  therefore recomputed from a node's position instead of being cached in
  the node (the header caches them in single byte fields; those byte
  fields are modelled separately for the interface-bound claim).
* The depth of a subtree is its number of levels: 0 for the empty
  subtree, `1 + max` of the children's depths otherwise.
* Ties (`coordinate = split value`) descend into the low child, the
  "≤ goes low" policy the spec leaves open (spec section 9).
-/
import Mathlib

namespace KD

/-- One indexed point: the coordinate vector together with the caller
supplied uid.  Models the payload part of `struct kdnode`
(src/lib/btree2/kdtree.h lines 52-59): fields `c` and `uid`. -/
structure kdpoint where
  c : List Int
  uid : Int
deriving DecidableEq

/-- The recursive node store of the tree.  `leaf` stands for a NULL
child pointer; `node lo pt hi` is a `struct kdnode` with `child[0] = lo`
(smaller side) and `child[1] = hi` (larger side).  The byte fields
`dim` and `depth` of the C struct are recomputed from the node's
position via the round-robin schedule. -/
inductive kdnode where
  | leaf
  | node (lo : kdnode) (pt : kdpoint) (hi : kdnode)
deriving DecidableEq

/-- All points stored in a subtree, in symmetric (low, here, high)
order. -/
def members : kdnode → List kdpoint
  | .leaf => []
  | .node lo p hi => members lo ++ p :: members hi

/-- Number of nodes of a subtree. -/
def tsize : kdnode → Nat
  | .leaf => 0
  | .node lo _ hi => tsize lo + tsize hi + 1

/-- Depth (number of levels) of a subtree: 0 for the empty subtree. -/
def depthN : kdnode → Nat
  | .leaf => 0
  | .node lo _ hi => 1 + max (depthN lo) (depthN hi)

/-- Coordinate of a point along dimension `d` (0 when out of range;
well-formed trees only hold vectors of the tree's dimensionality). -/
def coordAt (p : kdpoint) (d : Nat) : Int := p.c.getD d 0

/-- Squared Euclidean distance between two coordinate vectors. -/
def sqdist (a b : List Int) : Int :=
  (List.zipWith (fun x y => (x - y) * (x - y)) a b).sum

/-- Insertion of one element into a list sorted by the key `key`,
keeping the list sorted; an element with a key equal to existing keys
goes after them (stable). -/
def insortK {α : Type} (key : α → Int) (x : α) : List α → List α
  | [] => [x]
  | y :: ys => if key x < key y then x :: y :: ys else y :: insortK key x ys

/-- Insertion sort by the key `key` (ascending, stable). -/
def isortK {α : Type} (key : α → Int) (l : List α) : List α :=
  l.foldr (insortK key) []

/-- Key of a point for sorting along dimension `d`. -/
def keyd (d : Nat) (p : kdpoint) : Int := coordAt p d

/-- Number of binary digits of `n`; the depth of the median-split tree
over `n` points. -/
def hgt (n : Nat) : Nat :=
  if h : n = 0 then 0 else hgt (n / 2) + 1
termination_by n
decreasing_by exact Nat.div_lt_self (Nat.pos_of_ne_zero h) (by omega)

/-- Modelled from the spec: the median-split subtree rebuild used by the
rebalancing step of insert/remove and by `kdtree_optimize` (spec
sections 4.2 and 4.6); the implementation body kdtree.c is missing from
the source tree.  The member points are sorted along the scheduled
dimension for depth `dep`, the median becomes the subtree root and the
two halves are rebuilt recursively one level deeper.  `fuel` only feeds
the termination measure; any `fuel ≥ l.length` yields the same tree. -/
def buildKd (nd : Nat) : Nat → Nat → List kdpoint → kdnode
  | 0, _, _ => .leaf
  | fuel+1, dep, l =>
    match (isortK (keyd (dep % nd)) l).drop (l.length / 2) with
    | [] => .leaf
    | x :: rest =>
        .node (buildKd nd fuel (dep+1) ((isortK (keyd (dep % nd)) l).take (l.length / 2)))
          x
          (buildKd nd fuel (dep+1) rest)

/-- Balance check at one node: the subtree depth difference is within
the tolerance `b` (spec invariant I2). -/
def balN (b : Int) (lo hi : kdnode) : Bool :=
  decide ((((depthN lo : Int) - (depthN hi : Int)).natAbs : Int) ≤ b)

/-- Whole-subtree balance invariant I2 with tolerance `b`. -/
def balancedb (b : Int) : kdnode → Bool
  | .leaf => true
  | .node lo _ hi => balN b lo hi && balancedb b lo && balancedb b hi

/-- Modelled from the spec: the local rebuild fired by the rebalancing
check of insert/remove (spec sections 4.2 and 4.3); kdtree.c is missing
from the source tree.  If the node violates I2 for tolerance `b`, its
subtree is rebuilt from its member points by median split; otherwise it
is left untouched. -/
def rebal (nd : Nat) (b : Int) (dep : Nat) (n : kdnode) : kdnode :=
  match n with
  | .leaf => .leaf
  | .node lo _ hi => if balN b lo hi then n else buildKd nd (tsize n) dep (members n)

/-- Ordering invariant I1: at every node, all points of the low subtree
have coordinate ≤ the node's along the node's scheduled dimension, all
points of the high subtree have coordinate ≥ it. -/
def orderedb (nd : Nat) : Nat → kdnode → Bool
  | _, .leaf => true
  | dep, .node lo p hi =>
    (members lo).all (fun q => decide (coordAt q (dep % nd) ≤ coordAt p (dep % nd))) &&
    (members hi).all (fun q => decide (coordAt p (dep % nd) ≤ coordAt q (dep % nd))) &&
    orderedb nd (dep+1) lo && orderedb nd (dep+1) hi

/-- Every stored coordinate vector has the tree's dimensionality. -/
def dimsb (nd : Nat) (n : kdnode) : Bool :=
  (members n).all (fun p => p.c.length == nd)

/-- Modelled from the spec: the descent of `kdtree_insert` (spec
section 4.2); kdtree.c is missing from the source tree.  Descends
choosing low on `coordinate ≤ split value`, high otherwise; with
duplicates disallowed a coordinate-for-coordinate equal node met along
the descent path rejects the insert (`none`); on placement the
rebalancing check walks back up the insertion path, rebuilding any
ancestor that violates I2. -/
def kdInsert (nd : Nat) (b : Int) (c : List Int) (u : Int) (dc : Bool) :
    Nat → kdnode → Option kdnode
  | _, .leaf => some (.node .leaf ⟨c, u⟩ .leaf)
  | dep, .node lo p hi =>
    if !dc && (p.c == c) then none
    else if c.getD (dep % nd) 0 ≤ coordAt p (dep % nd) then
      match kdInsert nd b c u dc (dep+1) lo with
      | none => none
      | some lo' => some (rebal nd b dep (.node lo' p hi))
    else
      match kdInsert nd b c u dc (dep+1) hi with
      | none => none
      | some hi' => some (rebal nd b dep (.node lo p hi'))

/-- The descent path of an insert of coordinates `c` meets a node with
coordinate-for-coordinate equal position (spec section 4.2). -/
def dupOnPath (nd : Nat) (c : List Int) : Nat → kdnode → Bool
  | _, .leaf => false
  | dep, .node lo p hi =>
    p.c == c ||
      (if c.getD (dep % nd) 0 ≤ coordAt p (dep % nd) then dupOnPath nd c (dep+1) lo
       else dupOnPath nd c (dep+1) hi)

/-- First point of a list minimising the coordinate along dimension
`d`. -/
def minKey (d : Nat) : List kdpoint → Option kdpoint
  | [] => none
  | p :: ps =>
    match minKey d ps with
    | none => some p
    | some m => if coordAt p d ≤ coordAt m d then some p else some m

/-- First point of a list maximising the coordinate along dimension
`d`. -/
def maxKey (d : Nat) : List kdpoint → Option kdpoint
  | [] => none
  | p :: ps =>
    match maxKey d ps with
    | none => some p
    | some m => if coordAt m d ≤ coordAt p d then some p else some m

/-- Modelled from the spec: the search-and-repair recursion of
`kdtree_remove` (spec section 4.3); kdtree.c is missing from the source
tree.  The node matching coordinates and uid exactly is located (on a
coordinate tie both subtrees may hold it, so both are tried); a leaf
node is detached, an inner node is replaced by the high-subtree minimum
(or, with no high child, the low-subtree maximum) along the removed
node's split dimension, the substitute being removed recursively from
its original slot; the rebalancing check of spec section 4.2 runs along
the affected path.  `fuel` only feeds the termination measure; any
`fuel ≥ tsize n` yields the same result. -/
def kdRemove (nd : Nat) (b : Int) : Nat → List Int → Int → Nat → kdnode → Option kdnode
  | 0, _, _, _, _ => none
  | _+1, _, _, _, .leaf => none
  | fuel+1, c, u, dep, .node lo p hi =>
    if p.c = c ∧ p.uid = u then
      match minKey (dep % nd) (members hi) with
      | some m =>
        match kdRemove nd b fuel m.c m.uid (dep+1) hi with
        | none => none
        | some hi' => some (rebal nd b dep (.node lo m hi'))
      | none =>
        match maxKey (dep % nd) (members lo) with
        | some m =>
          match kdRemove nd b fuel m.c m.uid (dep+1) lo with
          | none => none
          | some lo' => some (rebal nd b dep (.node lo' m .leaf))
        | none => some .leaf
    else
      if c.getD (dep % nd) 0 < coordAt p (dep % nd) then
        match kdRemove nd b fuel c u (dep+1) lo with
        | none => none
        | some lo' => some (rebal nd b dep (.node lo' p hi))
      else if coordAt p (dep % nd) < c.getD (dep % nd) 0 then
        match kdRemove nd b fuel c u (dep+1) hi with
        | none => none
        | some hi' => some (rebal nd b dep (.node lo p hi'))
      else
        match kdRemove nd b fuel c u (dep+1) lo with
        | some lo' => some (rebal nd b dep (.node lo' p hi))
        | none =>
          match kdRemove nd b fuel c u (dep+1) hi with
          | none => none
          | some hi' => some (rebal nd b dep (.node lo p hi'))

/-- A stored point is a search candidate unless its uid equals the
optional skip uid. -/
def elig (skip : Option Int) (p : kdpoint) : Bool :=
  match skip with
  | none => true
  | some s => p.uid != s

/-- The (uid, squared distance to the query `q`) pair a search reports
for a stored point. -/
def pnd (q : List Int) (p : kdpoint) : Int × Int := (p.uid, sqdist p.c q)

/-- Squared distance of the worst (= last, largest) member of the
current result set; 0 on an empty set (only read when the set is
full). -/
def worstD : List (Int × Int) → Int
  | [] => 0
  | [x] => x.2
  | _ :: x :: rest => worstD (x :: rest)

/-- Offer a candidate to the bounded result set of a knn search (spec
section 4.4): the candidate is inserted by ascending squared distance
(after equal distances — ties are broken by insertion order) and the
set is truncated back to `k` members, so a candidate not beating the
current worst of a full set is dropped. -/
def offer (k : Nat) (res : List (Int × Int)) (x : Int × Int) : List (Int × Int) :=
  (insortK Prod.snd x res).take k

/-- Modelled from the spec: the recursive descent of `kdtree_knn` (spec
section 4.4); kdtree.c is missing from the source tree.  Each node
offers its point (unless skipped) to the bounded result set, descends
into the near side first, and visits the far side only when the result
set is not yet full or the squared distance from the query to the
splitting hyperplane does not exceed the current worst kept
distance. -/
def knnVisit (nd k : Nat) (q : List Int) (skip : Option Int) :
    kdnode → Nat → List (Int × Int) → List (Int × Int)
  | .leaf, _, res => res
  | .node lo p hi, dep, res =>
    let qd := q.getD (dep % nd) 0
    let pd := coordAt p (dep % nd)
    let res1 := if elig skip p then offer k res (pnd q p) else res
    if qd ≤ pd then
      let res2 := knnVisit nd k q skip lo (dep+1) res1
      if res2.length < k || decide ((qd - pd) * (qd - pd) ≤ worstD res2) then
        knnVisit nd k q skip hi (dep+1) res2
      else res2
    else
      let res2 := knnVisit nd k q skip hi (dep+1) res1
      if res2.length < k || decide ((qd - pd) * (qd - pd) ≤ worstD res2) then
        knnVisit nd k q skip lo (dep+1) res2
      else res2

/-- Modelled from the spec: the recursive descent of `kdtree_dnn` (spec
section 4.5); kdtree.c is missing from the source tree.  Every point
with squared distance within the fixed bound `r2` is collected; a side
of the splitting hyperplane is pruned only when it is the far side and
the squared hyperplane distance exceeds `r2`. -/
def dnnVisit (nd : Nat) (q : List Int) (skip : Option Int) (r2 : Int) :
    kdnode → Nat → List (Int × Int)
  | .leaf, _ => []
  | .node lo p hi, dep =>
    let qd := q.getD (dep % nd) 0
    let pd := coordAt p (dep % nd)
    let here := if elig skip p && decide (sqdist p.c q ≤ r2) then [pnd q p] else []
    let lres :=
      if qd ≤ pd || decide ((qd - pd) * (qd - pd) ≤ r2) then
        dnnVisit nd q skip r2 lo (dep+1)
      else []
    let hres :=
      if pd ≤ qd || decide ((qd - pd) * (qd - pd) ≤ r2) then
        dnnVisit nd q skip r2 hi (dep+1)
      else []
    here ++ lres ++ hres

/-- Error taxonomy of spec section 7 as far as the claims need it. -/
inductive KdError
  | invalidArgument
  | dimensionMismatch
deriving DecidableEq

/-- The tree container, modelling `struct kdtree`
(src/lib/btree2/kdtree.h lines 61-69): `ndims` (stored by the header in
an unsigned byte), `btol`, `count` and `root`.  The representation-only
fields `csize` and `nextdim` (the round-robin schedule table) carry no
independent state in this model. -/
structure kdtree where
  ndims : Nat
  btol : Int
  count : Nat
  root : kdnode
deriving DecidableEq

/-- Modelled from the spec: `kdtree_create` (spec section 4.1);
kdtree.c is missing from the source tree.  The header declares the
dimensionality parameter as a C `char` stored into an unsigned byte
field, so the caller's integer wraps modulo 2^8 before the zero check;
dimensionality 0 is rejected with `InvalidArgument`.  An unspecified
balance tolerance defaults to a library-chosen constant (7 here; the
spec leaves the default open). -/
def kdtree_create (ndims : Int) (btol : Option Int) : Except KdError kdtree :=
  let nd := (ndims.emod 256).toNat
  if nd = 0 then .error .invalidArgument
  else .ok { ndims := nd, btol := btol.getD 7, count := 0, root := .leaf }

/-- Insert status: spec section 4.2 (success / duplicate / error). -/
inductive InsStatus
  | success
  | duplicate
  | dimensionMismatch
deriving DecidableEq

/-- Modelled from the spec: `kdtree_insert` (spec section 4.2);
kdtree.c is missing from the source tree.  A coordinate vector of the
wrong length is rejected with the dimension-mismatch error before any
structural change; a duplicate rejection also leaves the tree
untouched; a successful insert increments `count`. -/
def kdtree_insert (t : kdtree) (c : List Int) (uid : Int) (dc : Bool) :
    InsStatus × kdtree :=
  if c.length ≠ t.ndims then (.dimensionMismatch, t)
  else
    match kdInsert t.ndims t.btol c uid dc 0 t.root with
    | none => (.duplicate, t)
    | some r => (.success, { t with root := r, count := t.count + 1 })

/-- Modelled from the spec: `kdtree_remove` (spec section 4.3);
kdtree.c is missing from the source tree.  Returns `false` (not found)
with the tree unchanged when no node matches coordinates and uid
exactly; otherwise removes one matching node, decrements `count` and
returns `true`. -/
def kdtree_remove (t : kdtree) (c : List Int) (uid : Int) : Bool × kdtree :=
  match kdRemove t.ndims t.btol (tsize t.root) c uid 0 t.root with
  | none => (false, t)
  | some r => (true, { t with root := r, count := t.count - 1 })

/-- Modelled from the spec: `kdtree_clear` (spec section 4.1); kdtree.c
is missing from the source tree.  Releases every node: the root becomes
empty and `count` 0, while dimensionality and tolerance are kept. -/
def kdtree_clear (t : kdtree) : kdtree := { t with root := .leaf, count := 0 }

/-- Modelled from the spec: `kdtree_knn` (spec section 4.4); kdtree.c
is missing from the source tree.  `k ≤ 0` and a query of the wrong
dimensionality are rejected with `InvalidArgument`; otherwise the
result is the bounded pruned search started on an empty result set.
The returned list holds the (uid, squared distance) pairs ascending by
distance; its length is the found-count the C function returns. -/
def kdtree_knn (t : kdtree) (c : List Int) (k : Int) (skip : Option Int) :
    Except KdError (List (Int × Int)) :=
  if k ≤ 0 then .error .invalidArgument
  else if c.length ≠ t.ndims then .error .invalidArgument
  else .ok (knnVisit t.ndims k.toNat c skip t.root 0 [])

/-- Modelled from the spec: `kdtree_dnn` (spec section 4.5); kdtree.c
is missing from the source tree.  Collects every stored point with
squared distance at most `maxdist * maxdist` from the query, excluding
the optional skip uid; the returned list's length is the found-count
the C function returns (0 is a valid outcome, not an error). -/
def kdtree_dnn (t : kdtree) (c : List Int) (maxdist : Int) (skip : Option Int) :
    Except KdError (List (Int × Int)) :=
  if c.length ≠ t.ndims then .error .invalidArgument
  else .ok (dnnVisit t.ndims c skip (maxdist * maxdist) t.root 0)

/-- Modelled from the spec: `kdtree_optimize` (spec section 4.6);
kdtree.c is missing from the source tree.  The whole tree is rebuilt
from its member points by exact median split; the sampling thoroughness
distinguishing levels 0, 1 and 2 is implementation-defined (spec
section 9 open question) and is modelled as the exact rebuild at every
level, so `level` does not influence the model. -/
def kdtree_optimize (t : kdtree) (level : Int) : kdtree :=
  { t with root := buildKd t.ndims (tsize t.root) 0 (members t.root) }

/-- The header stores a node's depth in an unsigned byte
(src/lib/btree2/kdtree.h line 55, `unsigned char depth`): the stored
field value of a true depth `d`. -/
def kdnode_depth_field (d : Nat) : Nat := d % 256

/-- Invariants I1-I4 of spec section 3 as they are provable of the
model: ordering (I1), balance within `max btol 1` (I2 up to the
unavoidable depth-difference of 1 of any two-node tree), count =
reachable nodes (I3), and well-formed dimensionality.  I4 (tree, not
DAG; no cycles) holds by construction of the inductive node store. -/
def ValidR (t : kdtree) : Prop :=
  1 ≤ t.ndims ∧ orderedb t.ndims 0 t.root = true ∧
    balancedb (max t.btol 1) t.root = true ∧
    dimsb t.ndims t.root = true ∧ t.count = tsize t.root

/-- Trees reachable through the public interface: created empty, then
any sequence of insert / remove / clear / optimize calls. -/
inductive Reach : kdtree → Prop
  | created (n : Int) (b : Option Int) (t : kdtree) :
      kdtree_create n b = .ok t → Reach t
  | ins (t : kdtree) (c : List Int) (u : Int) (dc : Bool) :
      Reach t → Reach (kdtree_insert t c u dc).2
  | rem (t : kdtree) (c : List Int) (u : Int) :
      Reach t → Reach (kdtree_remove t c u).2
  | clr (t : kdtree) : Reach t → Reach (kdtree_clear t)
  | opt (t : kdtree) (lvl : Int) : Reach t → Reach (kdtree_optimize t lvl)

/-- One mutating call of a workload trace (spec section 8, count
consistency). -/
inductive KOp
  | ins (c : List Int) (u : Int) (dc : Bool)
  | rem (c : List Int) (u : Int)

/-- Runs a trace of mutating calls; returns the final tree together
with the number of successful inserts and of successful removes. -/
def applyTrace : kdtree → List KOp → kdtree × Nat × Nat
  | t, [] => (t, 0, 0)
  | t, .ins c u dc :: ops =>
    let r := kdtree_insert t c u dc
    let rest := applyTrace r.2 ops
    (rest.1, (if r.1 = .success then 1 else 0) + rest.2.1, rest.2.2)
  | t, .rem c u :: ops =>
    let r := kdtree_remove t c u
    let rest := applyTrace r.2 ops
    (rest.1, rest.2.1, (if r.1 then 1 else 0) + rest.2.2)

/-- Eligible stored points of a tree for a search with the given skip
uid, in symmetric traversal order. -/
def eligList (t : kdtree) (skip : Option Int) : List kdpoint :=
  (members t.root).filter (elig skip)

instance (t : kdtree) : Decidable (ValidR t) := by
  unfold ValidR
  infer_instance

/-! ### Sorting helper lemmas -/

theorem insortK_perm {α : Type} (key : α → Int) (x : α) (l : List α) :
    (insortK key x l).Perm (x :: l) := by
  induction l with
  | nil => simp [insortK]
  | cons y ys ih =>
    simp only [insortK]
    split
    · exact List.Perm.refl _
    · exact (ih.cons y).trans (List.Perm.swap x y ys)

theorem isortK_perm {α : Type} (key : α → Int) (l : List α) : (isortK key l).Perm l := by
  induction l with
  | nil => simp [isortK]
  | cons y ys ih =>
    exact (insortK_perm key y (isortK key ys)).trans (ih.cons y)

theorem isortK_length {α : Type} (key : α → Int) (l : List α) :
    (isortK key l).length = l.length :=
  (isortK_perm key l).length_eq

theorem insortK_sorted {α : Type} (key : α → Int) (x : α) (l : List α)
    (h : l.Pairwise (fun a b => key a ≤ key b)) :
    (insortK key x l).Pairwise (fun a b => key a ≤ key b) := by
  induction l with
  | nil => simp [insortK]
  | cons y ys ih =>
    rcases List.pairwise_cons.mp h with ⟨hy, hys⟩
    simp only [insortK]
    split
    next hlt =>
      refine List.pairwise_cons.mpr ⟨?_, h⟩
      intro b hb
      rcases List.mem_cons.mp hb with rfl | hb
      · exact le_of_lt hlt
      · exact le_trans (le_of_lt hlt) (hy _ hb)
    next hge =>
      refine List.pairwise_cons.mpr ⟨?_, ih hys⟩
      intro b hb
      rcases List.mem_cons.mp ((insortK_perm key x ys).mem_iff.mp hb) with rfl | hb
      · exact le_of_not_lt hge
      · exact hy _ hb

theorem isortK_sorted {α : Type} (key : α → Int) (l : List α) :
    (isortK key l).Pairwise (fun a b => key a ≤ key b) := by
  induction l with
  | nil => simp [isortK]
  | cons y ys ih => exact insortK_sorted key y _ ih

theorem insortK_append {α : Type} (key : α → Int) (x : α) (l : List α)
    (h : ∀ y ∈ l, ¬ key x < key y) : insortK key x l = l ++ [x] := by
  induction l with
  | nil => rfl
  | cons y ys ih =>
    simp only [insortK, if_neg (h y (by simp))]
    rw [ih (fun z hz => h z (by simp [hz]))]
    rfl

theorem map_snd_insortK (x : Int × Int) (l : List (Int × Int)) :
    (insortK Prod.snd x l).map Prod.snd = insortK id x.2 (l.map Prod.snd) := by
  induction l with
  | nil => rfl
  | cons y ys ih =>
    simp only [insortK, List.map_cons]
    by_cases hxy : x.2 < y.2
    · simp [hxy, insortK, id]
    · simp only [if_neg hxy, List.map_cons, ih]
      simp [insortK, id, hxy]

theorem take_insortI_take (a : Int) (s : List Int) (k : Nat) :
    ((insortK id a (s.take k)).take k) = (insortK id a s).take k := by
  induction s generalizing k with
  | nil => simp
  | cons y ys ih =>
    cases k with
    | zero => simp
    | succ m =>
      by_cases hay : id a < id y
      · simp only [List.take_succ_cons, insortK, if_pos hay]
        cases m with
        | zero => simp
        | succ m' =>
          simp only [List.take_succ_cons, List.take_take]
          have hmin : min m' (m' + 1) = m' := by omega
          rw [hmin]
      · simp only [List.take_succ_cons, insortK, if_neg hay]
        simp only [List.take_succ_cons, ih]

theorem isortI_sorted (l : List Int) :
    (isortK id l).Pairwise (fun a b : Int => a ≤ b) := isortK_sorted id l

theorem insortI_sorted (a : Int) (l : List Int)
    (h : l.Pairwise (fun a b : Int => a ≤ b)) :
    (insortK id a l).Pairwise (fun a b : Int => a ≤ b) := insortK_sorted id a l h

theorem isortI_eq_of_perm {l l' : List Int} (h : l.Perm l') :
    isortK id l = isortK id l' :=
  List.eq_of_perm_of_sorted
    (((isortK_perm id l).trans h).trans (isortK_perm id l').symm)
    (isortI_sorted l) (isortI_sorted l')

theorem isortI_snoc (a : Int) (s : List Int) :
    isortK id (s ++ [a]) = insortK id a (isortK id s) := by
  refine List.eq_of_perm_of_sorted ?_ (isortI_sorted _)
    (insortI_sorted a _ (isortI_sorted s))
  have h1 : (isortK id (s ++ [a])).Perm (a :: s) :=
    (isortK_perm id _).trans (by simpa using @List.perm_append_comm _ s [a])
  have h2 : (insortK id a (isortK id s)).Perm (a :: s) :=
    (insortK_perm id a _).trans ((isortK_perm id s).cons a)
  exact h1.trans h2.symm

/-! ### Structural facts about members, size, depth -/

theorem members_node (lo : kdnode) (p : kdpoint) (hi : kdnode) :
    members (.node lo p hi) = members lo ++ p :: members hi := rfl

theorem tsize_members (n : kdnode) : tsize n = (members n).length := by
  induction n with
  | leaf => rfl
  | node lo p hi ihl ihr =>
    simp [tsize, members, ihl, ihr]
    omega

/-! ### Facts about `hgt` -/

theorem hgt_zero : hgt 0 = 0 := by
  rw [hgt]
  simp

theorem hgt_of_ne_zero {n : Nat} (h : n ≠ 0) : hgt n = hgt (n / 2) + 1 := by
  rw [hgt]
  simp [h]

theorem hgt_mono : ∀ {n m : Nat}, m ≤ n → hgt m ≤ hgt n := by
  intro n
  induction n using Nat.strong_induction_on with
  | _ n ih =>
    intro m hmn
    by_cases hm : m = 0
    · subst hm
      simp [hgt_zero]
    · have hn : n ≠ 0 := by omega
      rw [hgt_of_ne_zero hm, hgt_of_ne_zero hn]
      have hlt : n / 2 < n := Nat.div_lt_self (by omega) (by omega)
      exact Nat.succ_le_succ (ih (n / 2) hlt (Nat.div_le_div_right hmn))

theorem hgt_succ_le : ∀ n : Nat, hgt (n + 1) ≤ hgt n + 1 := by
  intro n
  induction n using Nat.strong_induction_on with
  | _ n ih =>
    have h1 : hgt (n + 1) = hgt ((n + 1) / 2) + 1 := hgt_of_ne_zero (by omega)
    by_cases hn : n = 0
    · subst hn
      rw [h1]
    · rw [h1, hgt_of_ne_zero hn]
      have hsplit : (n + 1) / 2 = n / 2 ∨ (n + 1) / 2 = n / 2 + 1 := by omega
      rcases hsplit with h | h
      · rw [h]
        omega
      · rw [h]
        have := ih (n / 2) (Nat.div_lt_self (by omega) (by omega))
        omega

/-! ### Facts about the median-split rebuild -/

theorem buildKd_nil (nd fuel dep : Nat) : buildKd nd fuel dep [] = .leaf := by
  cases fuel <;> simp [buildKd, isortK]

theorem buildKd_members (nd : Nat) : ∀ fuel dep (l : List kdpoint), l.length ≤ fuel →
    (members (buildKd nd fuel dep l)).Perm l := by
  intro fuel
  induction fuel with
  | zero =>
    intro dep l hl
    have : l = [] := List.length_eq_zero.mp (by omega)
    subst this
    simp [buildKd, members]
  | succ fuel ih =>
    intro dep l hl
    have hslen := isortK_length (keyd (dep % nd)) l
    cases hd : (isortK (keyd (dep % nd)) l).drop (l.length / 2) with
    | nil =>
      have hdl := congrArg List.length hd
      simp only [List.length_drop, List.length_nil] at hdl
      have hl0 : l.length = 0 := by omega
      have : l = [] := List.length_eq_zero.mp hl0
      subst this
      simp [buildKd, members, isortK]
    | cons x rest =>
      have hrest := congrArg List.length hd
      simp only [List.length_drop, List.length_cons] at hrest
      have hlne : l.length ≠ 0 := by omega
      have htake : ((isortK (keyd (dep % nd)) l).take (l.length / 2)).length = l.length / 2 := by
        simp only [List.length_take]
        omega
      have h1 := ih (dep+1) ((isortK (keyd (dep % nd)) l).take (l.length / 2))
        (by rw [htake]; omega)
      have h2 := ih (dep+1) rest (by omega)
      have hsplit : (isortK (keyd (dep % nd)) l).take (l.length / 2) ++ x :: rest
          = isortK (keyd (dep % nd)) l := by
        rw [← hd]
        exact List.take_append_drop _ _
      simp only [buildKd, hd, members]
      refine (h1.append (h2.cons x)).trans ?_
      rw [hsplit]
      exact isortK_perm _ _

theorem buildKd_depth (nd : Nat) : ∀ fuel dep (l : List kdpoint), l.length ≤ fuel →
    depthN (buildKd nd fuel dep l) = hgt l.length := by
  intro fuel
  induction fuel with
  | zero =>
    intro dep l hl
    have : l = [] := List.length_eq_zero.mp (by omega)
    subst this
    simp [buildKd, depthN, hgt_zero]
  | succ fuel ih =>
    intro dep l hl
    have hslen := isortK_length (keyd (dep % nd)) l
    cases hd : (isortK (keyd (dep % nd)) l).drop (l.length / 2) with
    | nil =>
      have hdl := congrArg List.length hd
      simp only [List.length_drop, List.length_nil] at hdl
      have hl0 : l.length = 0 := by omega
      have : l = [] := List.length_eq_zero.mp hl0
      subst this
      simp [buildKd, depthN, isortK, hgt_zero]
    | cons x rest =>
      have hrest := congrArg List.length hd
      simp only [List.length_drop, List.length_cons] at hrest
      have hlne : l.length ≠ 0 := by omega
      have htake : ((isortK (keyd (dep % nd)) l).take (l.length / 2)).length = l.length / 2 := by
        simp only [List.length_take]
        omega
      have h1 := ih (dep+1) ((isortK (keyd (dep % nd)) l).take (l.length / 2))
        (by rw [htake]; omega)
      have h2 := ih (dep+1) rest (by omega)
      simp only [buildKd, hd, depthN]
      rw [h1, h2, htake]
      have hmax : hgt rest.length ≤ hgt (l.length / 2) := hgt_mono (by omega)
      rw [Nat.max_eq_left hmax, hgt_of_ne_zero hlne]
      omega

theorem buildKd_balanced (nd : Nat) (b : Int) (hb : 1 ≤ b) :
    ∀ fuel dep (l : List kdpoint), l.length ≤ fuel →
    balancedb b (buildKd nd fuel dep l) = true := by
  intro fuel
  induction fuel with
  | zero =>
    intro dep l hl
    have : l = [] := List.length_eq_zero.mp (by omega)
    subst this
    simp [buildKd, balancedb]
  | succ fuel ih =>
    intro dep l hl
    have hslen := isortK_length (keyd (dep % nd)) l
    cases hd : (isortK (keyd (dep % nd)) l).drop (l.length / 2) with
    | nil =>
      have hdl := congrArg List.length hd
      simp only [List.length_drop, List.length_nil] at hdl
      have hl0 : l.length = 0 := by omega
      have : l = [] := List.length_eq_zero.mp hl0
      subst this
      simp [buildKd, balancedb, isortK]
    | cons x rest =>
      have hrest := congrArg List.length hd
      simp only [List.length_drop, List.length_cons] at hrest
      have hlne : l.length ≠ 0 := by omega
      have htake : ((isortK (keyd (dep % nd)) l).take (l.length / 2)).length = l.length / 2 := by
        simp only [List.length_take]
        omega
      have hfl : ((isortK (keyd (dep % nd)) l).take (l.length / 2)).length ≤ fuel := by
        rw [htake]; omega
      have hfr : rest.length ≤ fuel := by omega
      have d1 := buildKd_depth nd fuel (dep+1)
        ((isortK (keyd (dep % nd)) l).take (l.length / 2)) hfl
      have d2 := buildKd_depth nd fuel (dep+1) rest hfr
      have e1 : hgt rest.length ≤ hgt (l.length / 2) := hgt_mono (by omega)
      have e2 : hgt (l.length / 2) ≤ hgt rest.length + 1 := by
        calc hgt (l.length / 2) ≤ hgt (rest.length + 1) := hgt_mono (by omega)
          _ ≤ hgt rest.length + 1 := hgt_succ_le _
      simp only [buildKd, hd, balancedb, Bool.and_eq_true]
      refine ⟨⟨?_, ih (dep+1) _ hfl⟩, ih (dep+1) rest hfr⟩
      simp only [balN, d1, d2, htake, decide_eq_true_eq]
      omega

theorem buildKd_ordered (nd : Nat) : ∀ fuel dep (l : List kdpoint), l.length ≤ fuel →
    orderedb nd dep (buildKd nd fuel dep l) = true := by
  intro fuel
  induction fuel with
  | zero =>
    intro dep l hl
    have : l = [] := List.length_eq_zero.mp (by omega)
    subst this
    simp [buildKd, orderedb]
  | succ fuel ih =>
    intro dep l hl
    have hslen := isortK_length (keyd (dep % nd)) l
    cases hd : (isortK (keyd (dep % nd)) l).drop (l.length / 2) with
    | nil =>
      have hdl := congrArg List.length hd
      simp only [List.length_drop, List.length_nil] at hdl
      have hl0 : l.length = 0 := by omega
      have : l = [] := List.length_eq_zero.mp hl0
      subst this
      simp [buildKd, orderedb, isortK]
    | cons x rest =>
      have hrest := congrArg List.length hd
      simp only [List.length_drop, List.length_cons] at hrest
      have hlne : l.length ≠ 0 := by omega
      have htake : ((isortK (keyd (dep % nd)) l).take (l.length / 2)).length = l.length / 2 := by
        simp only [List.length_take]
        omega
      have hfl : ((isortK (keyd (dep % nd)) l).take (l.length / 2)).length ≤ fuel := by
        rw [htake]; omega
      have hfr : rest.length ≤ fuel := by omega
      have hsplit : (isortK (keyd (dep % nd)) l).take (l.length / 2) ++ x :: rest
          = isortK (keyd (dep % nd)) l := by
        rw [← hd]
        exact List.take_append_drop _ _
      have hsorted := isortK_sorted (keyd (dep % nd)) l
      rw [← hsplit] at hsorted
      rcases List.pairwise_append.mp hsorted with ⟨hp1, hp2, hcross⟩
      have hxrest : ∀ bb ∈ rest, keyd (dep % nd) x ≤ keyd (dep % nd) bb :=
        (List.pairwise_cons.mp hp2).1
      have hm1 := buildKd_members nd fuel (dep+1)
        ((isortK (keyd (dep % nd)) l).take (l.length / 2)) hfl
      have hm2 := buildKd_members nd fuel (dep+1) rest hfr
      simp only [buildKd, hd, orderedb, Bool.and_eq_true]
      refine ⟨⟨⟨?_, ?_⟩, ih (dep+1) _ hfl⟩, ih (dep+1) rest hfr⟩
      · rw [List.all_eq_true]
        intro q hq
        rw [decide_eq_true_eq]
        exact hcross q (hm1.mem_iff.mp hq) x (List.mem_cons_self x rest)
      · rw [List.all_eq_true]
        intro q hq
        rw [decide_eq_true_eq]
        exact hxrest q (hm2.mem_iff.mp hq)

/-! ### Facts about the rebalancing wrapper -/

theorem rebal_members (nd : Nat) (b : Int) (dep : Nat) (n : kdnode) :
    (members (rebal nd b dep n)).Perm (members n) := by
  cases n with
  | leaf => exact List.Perm.refl _
  | node lo p hi =>
    simp only [rebal]
    split
    · exact List.Perm.refl _
    · exact buildKd_members nd _ dep _ (by rw [tsize_members])

theorem rebal_ordered (nd : Nat) (b : Int) (dep : Nat) (n : kdnode)
    (h : orderedb nd dep n = true) : orderedb nd dep (rebal nd b dep n) = true := by
  cases n with
  | leaf => exact h
  | node lo p hi =>
    simp only [rebal]
    split
    · exact h
    · exact buildKd_ordered nd _ dep _ (by rw [tsize_members])

theorem balN_mono {b b' : Int} (h : b ≤ b') {lo hi : kdnode}
    (hb : balN b lo hi = true) : balN b' lo hi = true := by
  simp only [balN, decide_eq_true_eq] at hb ⊢
  omega

theorem balancedb_mono {b b' : Int} (h : b ≤ b') : ∀ {n : kdnode},
    balancedb b n = true → balancedb b' n = true := by
  intro n
  induction n with
  | leaf => intro _; rfl
  | node lo p hi ihl ihr =>
    intro hn
    simp only [balancedb, Bool.and_eq_true] at hn ⊢
    exact ⟨⟨balN_mono h hn.1.1, ihl hn.1.2⟩, ihr hn.2⟩

theorem rebal_balanced (nd : Nat) (b : Int) (dep : Nat) (lo : kdnode) (p : kdpoint)
    (hi : kdnode) (hlo : balancedb (max b 1) lo = true)
    (hhi : balancedb (max b 1) hi = true) :
    balancedb (max b 1) (rebal nd b dep (.node lo p hi)) = true := by
  simp only [rebal]
  split
  next hbal =>
    simp only [balancedb, Bool.and_eq_true]
    exact ⟨⟨balN_mono (le_max_left b 1) hbal, hlo⟩, hhi⟩
  next =>
    exact buildKd_balanced nd (max b 1) (le_max_right b 1) _ dep _ (by rw [tsize_members])

theorem rebal_mems (nd : Nat) (b : Int) (dep : Nat) (n : kdnode) :
    (members (rebal nd b dep n) : Multiset kdpoint) = (members n : Multiset kdpoint) :=
  Multiset.coe_eq_coe.mpr (rebal_members nd b dep n)

/-! ### Convenient characterisations of the invariants -/

theorem orderedb_node (nd dep : Nat) (lo : kdnode) (p : kdpoint) (hi : kdnode) :
    orderedb nd dep (.node lo p hi) = true ↔
      (∀ q ∈ members lo, coordAt q (dep % nd) ≤ coordAt p (dep % nd)) ∧
      (∀ q ∈ members hi, coordAt p (dep % nd) ≤ coordAt q (dep % nd)) ∧
      orderedb nd (dep+1) lo = true ∧ orderedb nd (dep+1) hi = true := by
  simp [orderedb, List.all_eq_true, Bool.and_eq_true, and_assoc]

theorem balancedb_node (b : Int) (lo : kdnode) (p : kdpoint) (hi : kdnode) :
    balancedb b (.node lo p hi) = true ↔
      balN b lo hi = true ∧ balancedb b lo = true ∧ balancedb b hi = true := by
  simp [balancedb, Bool.and_eq_true, and_assoc]

theorem dimsb_iff (nd : Nat) (n : kdnode) :
    dimsb nd n = true ↔ ∀ p ∈ members n, p.c.length = nd := by
  simp [dimsb, List.all_eq_true]

theorem mem_members_of_mems {n : kdnode} {l : List kdpoint}
    (h : (members n : Multiset kdpoint) = (l : Multiset kdpoint)) :
    ∀ p, p ∈ members n ↔ p ∈ l := by
  intro p
  exact (Multiset.coe_eq_coe.mp h).mem_iff

/-! ### Facts about insertion -/

theorem kdInsert_mems (nd : Nat) (b : Int) (c : List Int) (u : Int) (dc : Bool) :
    ∀ (n : kdnode) dep (r : kdnode), kdInsert nd b c u dc dep n = some r →
    (members r : Multiset kdpoint) = ⟨c, u⟩ ::ₘ (members n : Multiset kdpoint) := by
  intro n
  induction n with
  | leaf =>
    intro dep r hr
    simp only [kdInsert, Option.some.injEq] at hr
    subst hr
    simp [members]
  | node lo p hi ihl ihr =>
    intro dep r hr
    simp only [kdInsert] at hr
    split at hr
    · exact absurd hr (by simp)
    · split at hr
      · cases hlo : kdInsert nd b c u dc (dep+1) lo with
        | none => rw [hlo] at hr; exact absurd hr (by simp)
        | some lo' =>
          rw [hlo] at hr
          simp only [Option.some.injEq] at hr
          subst hr
          rw [rebal_mems, members_node, members_node]
          have h1 := ihl (dep+1) lo' hlo
          simp only [← Multiset.coe_add, ← Multiset.cons_coe]
          rw [h1]
          simp [Multiset.cons_add]
      · cases hhi : kdInsert nd b c u dc (dep+1) hi with
        | none => rw [hhi] at hr; exact absurd hr (by simp)
        | some hi' =>
          rw [hhi] at hr
          simp only [Option.some.injEq] at hr
          subst hr
          rw [rebal_mems, members_node, members_node]
          have h1 := ihr (dep+1) hi' hhi
          simp only [← Multiset.coe_add, ← Multiset.cons_coe]
          rw [h1]
          simp only [Multiset.add_cons]
          exact Multiset.cons_swap p ⟨c, u⟩ _

theorem mems_cons_mem {n : kdnode} {x : kdpoint} {l : List kdpoint}
    (h : (members n : Multiset kdpoint) = x ::ₘ (l : Multiset kdpoint)) :
    ∀ q, q ∈ members n ↔ q = x ∨ q ∈ l := by
  intro q
  rw [← Multiset.mem_coe, h, Multiset.mem_cons, Multiset.mem_coe]

theorem kdInsert_ordered (nd : Nat) (b : Int) (c : List Int) (u : Int) (dc : Bool) :
    ∀ (n : kdnode) dep (r : kdnode), kdInsert nd b c u dc dep n = some r →
    orderedb nd dep n = true → orderedb nd dep r = true := by
  intro n
  induction n with
  | leaf =>
    intro dep r hr _
    simp only [kdInsert, Option.some.injEq] at hr
    subst hr
    simp [orderedb, members]
  | node lo p hi ihl ihr =>
    intro dep r hr hord
    rcases (orderedb_node nd dep lo p hi).mp hord with ⟨hL, hH, hol, hoh⟩
    simp only [kdInsert] at hr
    split at hr
    · exact absurd hr (by simp)
    · split at hr
      next hle =>
        cases hlo : kdInsert nd b c u dc (dep+1) lo with
        | none => rw [hlo] at hr; exact absurd hr (by simp)
        | some lo' =>
          rw [hlo] at hr
          simp only [Option.some.injEq] at hr
          subst hr
          apply rebal_ordered
          rw [orderedb_node]
          refine ⟨?_, hH, ihl (dep+1) lo' hlo hol, hoh⟩
          intro q hq
          rcases (mems_cons_mem (kdInsert_mems nd b c u dc lo (dep+1) lo' hlo) q).mp hq
            with rfl | hq
          · exact hle
          · exact hL q hq
      next hle =>
        cases hhi : kdInsert nd b c u dc (dep+1) hi with
        | none => rw [hhi] at hr; exact absurd hr (by simp)
        | some hi' =>
          rw [hhi] at hr
          simp only [Option.some.injEq] at hr
          subst hr
          apply rebal_ordered
          rw [orderedb_node]
          refine ⟨hL, ?_, hol, ihr (dep+1) hi' hhi hoh⟩
          intro q hq
          rcases (mems_cons_mem (kdInsert_mems nd b c u dc hi (dep+1) hi' hhi) q).mp hq
            with rfl | hq
          · exact le_of_not_le hle
          · exact hH q hq

theorem kdInsert_balanced (nd : Nat) (b : Int) (c : List Int) (u : Int) (dc : Bool) :
    ∀ (n : kdnode) dep (r : kdnode), kdInsert nd b c u dc dep n = some r →
    balancedb (max b 1) n = true → balancedb (max b 1) r = true := by
  intro n
  induction n with
  | leaf =>
    intro dep r hr _
    simp only [kdInsert, Option.some.injEq] at hr
    subst hr
    simp only [balancedb, balN, depthN, Bool.and_eq_true, decide_eq_true_eq]
    refine ⟨⟨?_, trivial⟩, trivial⟩
    omega
  | node lo p hi ihl ihr =>
    intro dep r hr hbal
    rcases (balancedb_node (max b 1) lo p hi).mp hbal with ⟨hN, hbl, hbh⟩
    simp only [kdInsert] at hr
    split at hr
    · exact absurd hr (by simp)
    · split at hr
      · cases hlo : kdInsert nd b c u dc (dep+1) lo with
        | none => rw [hlo] at hr; exact absurd hr (by simp)
        | some lo' =>
          rw [hlo] at hr
          simp only [Option.some.injEq] at hr
          subst hr
          exact rebal_balanced nd b dep lo' p hi (ihl (dep+1) lo' hlo hbl) hbh
      · cases hhi : kdInsert nd b c u dc (dep+1) hi with
        | none => rw [hhi] at hr; exact absurd hr (by simp)
        | some hi' =>
          rw [hhi] at hr
          simp only [Option.some.injEq] at hr
          subst hr
          exact rebal_balanced nd b dep lo p hi' hbl (ihr (dep+1) hi' hhi hbh)

theorem kdInsert_none_iff (nd : Nat) (b : Int) (c : List Int) (u : Int) :
    ∀ (n : kdnode) dep, kdInsert nd b c u false dep n = none ↔ dupOnPath nd c dep n = true := by
  intro n
  induction n with
  | leaf => intro dep; simp [kdInsert, dupOnPath]
  | node lo p hi ihl ihr =>
    intro dep
    simp only [kdInsert, dupOnPath]
    by_cases hdup : (p.c == c) = true
    · rw [if_pos (by simp [hdup])]
      simp [hdup]
    · have hdf : (p.c == c) = false := by
        revert hdup
        cases (p.c == c) <;> simp
      rw [if_neg (by simp [hdf])]
      by_cases hle : c.getD (dep % nd) 0 ≤ coordAt p (dep % nd)
      · rw [if_pos hle, if_pos hle]
        cases hlo : kdInsert nd b c u false (dep+1) lo with
        | none => simp [hdf, (ihl (dep+1)).mp hlo]
        | some lo' =>
          have hnd : dupOnPath nd c (dep+1) lo ≠ true := by
            intro h
            rw [(ihl (dep+1)).mpr h] at hlo
            cases hlo
          simp [hdf, hnd]
      · rw [if_neg hle, if_neg hle]
        cases hhi : kdInsert nd b c u false (dep+1) hi with
        | none => simp [hdf, (ihr (dep+1)).mp hhi]
        | some hi' =>
          have hnd : dupOnPath nd c (dep+1) hi ≠ true := by
            intro h
            rw [(ihr (dep+1)).mpr h] at hhi
            cases hhi
          simp [hdf, hnd]

theorem kdInsert_dc_some (nd : Nat) (b : Int) (c : List Int) (u : Int) :
    ∀ (n : kdnode) dep, ∃ r, kdInsert nd b c u true dep n = some r := by
  intro n
  induction n with
  | leaf => intro dep; exact ⟨_, rfl⟩
  | node lo p hi ihl ihr =>
    intro dep
    simp only [kdInsert, Bool.not_true, Bool.false_and, Bool.false_eq_true, if_false]
    by_cases hle : c.getD (dep % nd) 0 ≤ coordAt p (dep % nd)
    · rcases ihl (dep+1) with ⟨lo', hlo⟩
      rw [if_pos hle, hlo]
      exact ⟨_, rfl⟩
    · rcases ihr (dep+1) with ⟨hi', hhi⟩
      rw [if_neg hle, hhi]
      exact ⟨_, rfl⟩

/-! ### Facts about minKey / maxKey -/

theorem minKey_isSome (d : Nat) (p : kdpoint) (ps : List kdpoint) :
    ∃ m, minKey d (p :: ps) = some m := by
  simp only [minKey]
  cases minKey d ps with
  | none => exact ⟨p, rfl⟩
  | some m' =>
    by_cases h : coordAt p d ≤ coordAt m' d
    · exact ⟨p, by simp [h]⟩
    · exact ⟨m', by simp [h]⟩

theorem maxKey_isSome (d : Nat) (p : kdpoint) (ps : List kdpoint) :
    ∃ m, maxKey d (p :: ps) = some m := by
  simp only [maxKey]
  cases maxKey d ps with
  | none => exact ⟨p, rfl⟩
  | some m' =>
    by_cases h : coordAt m' d ≤ coordAt p d
    · exact ⟨p, by simp [h]⟩
    · exact ⟨m', by simp [h]⟩

theorem minKey_mem (d : Nat) : ∀ (l : List kdpoint) (m : kdpoint),
    minKey d l = some m → m ∈ l := by
  intro l
  induction l with
  | nil => intro m hm; cases hm
  | cons p ps ih =>
    intro m hm
    cases hmk : minKey d ps with
    | none =>
      simp only [minKey, hmk] at hm
      injection hm with hm
      subst hm
      exact List.mem_cons_self _ _
    | some m' =>
      simp only [minKey, hmk] at hm
      split at hm
      · injection hm with hm
        subst hm
        exact List.mem_cons_self _ _
      · injection hm with hm
        subst hm
        exact List.mem_cons_of_mem _ (ih m' hmk)

theorem minKey_le (d : Nat) : ∀ (l : List kdpoint) (m : kdpoint),
    minKey d l = some m → ∀ x ∈ l, coordAt m d ≤ coordAt x d := by
  intro l
  induction l with
  | nil => intro m hm; cases hm
  | cons p ps ih =>
    intro m hm x hx
    cases hmk : minKey d ps with
    | none =>
      have hps : ps = [] := by
        cases ps with
        | nil => rfl
        | cons a as =>
          rcases minKey_isSome d a as with ⟨mm, hmm⟩
          rw [hmm] at hmk
          cases hmk
      subst hps
      simp only [minKey] at hm
      injection hm with hm
      subst hm
      simp at hx
      subst hx
      exact le_refl _
    | some m' =>
      simp only [minKey, hmk] at hm
      rcases List.mem_cons.mp hx with rfl | hx
      · split at hm
        next hle =>
          injection hm with hm
          subst hm
          exact le_refl _
        next hle =>
          injection hm with hm
          subst hm
          exact le_of_not_le hle
      · split at hm
        next hle =>
          injection hm with hm
          subst hm
          exact le_trans hle (ih m' hmk x hx)
        next hle =>
          injection hm with hm
          subst hm
          exact ih m' hmk x hx

theorem maxKey_mem (d : Nat) : ∀ (l : List kdpoint) (m : kdpoint),
    maxKey d l = some m → m ∈ l := by
  intro l
  induction l with
  | nil => intro m hm; cases hm
  | cons p ps ih =>
    intro m hm
    cases hmk : maxKey d ps with
    | none =>
      simp only [maxKey, hmk] at hm
      injection hm with hm
      subst hm
      exact List.mem_cons_self _ _
    | some m' =>
      simp only [maxKey, hmk] at hm
      split at hm
      · injection hm with hm
        subst hm
        exact List.mem_cons_self _ _
      · injection hm with hm
        subst hm
        exact List.mem_cons_of_mem _ (ih m' hmk)

theorem maxKey_ge (d : Nat) : ∀ (l : List kdpoint) (m : kdpoint),
    maxKey d l = some m → ∀ x ∈ l, coordAt x d ≤ coordAt m d := by
  intro l
  induction l with
  | nil => intro m hm; cases hm
  | cons p ps ih =>
    intro m hm x hx
    cases hmk : maxKey d ps with
    | none =>
      have hps : ps = [] := by
        cases ps with
        | nil => rfl
        | cons a as =>
          rcases maxKey_isSome d a as with ⟨mm, hmm⟩
          rw [hmm] at hmk
          cases hmk
      subst hps
      simp only [maxKey] at hm
      injection hm with hm
      subst hm
      simp at hx
      subst hx
      exact le_refl _
    | some m' =>
      simp only [maxKey, hmk] at hm
      rcases List.mem_cons.mp hx with rfl | hx
      · split at hm
        next hle =>
          injection hm with hm
          subst hm
          exact le_refl _
        next hle =>
          injection hm with hm
          subst hm
          exact le_of_not_le hle
      · split at hm
        next hle =>
          injection hm with hm
          subst hm
          exact le_trans (ih m' hmk x hx) hle
        next hle =>
          injection hm with hm
          subst hm
          exact ih m' hmk x hx

/-! ### Facts about removal -/

theorem minKey_eq_none (d : Nat) : ∀ l : List kdpoint, minKey d l = none ↔ l = [] := by
  intro l
  cases l with
  | nil => simp [minKey]
  | cons p ps =>
    constructor
    · intro h
      rcases minKey_isSome d p ps with ⟨m, hm⟩
      rw [hm] at h
      cases h
    · intro h
      cases h

theorem maxKey_eq_none (d : Nat) : ∀ l : List kdpoint, maxKey d l = none ↔ l = [] := by
  intro l
  cases l with
  | nil => simp [maxKey]
  | cons p ps =>
    constructor
    · intro h
      rcases maxKey_isSome d p ps with ⟨m, hm⟩
      rw [hm] at h
      cases h
    · intro h
      cases h

theorem kdRemove_mems (nd : Nat) (b : Int) :
    ∀ fuel (c : List Int) (u : Int) dep (n r : kdnode),
    kdRemove nd b fuel c u dep n = some r →
    (⟨c, u⟩ : kdpoint) ∈ members n ∧
    (members r : Multiset kdpoint) = ((members n : Multiset kdpoint)).erase ⟨c, u⟩ := by
  intro fuel
  induction fuel with
  | zero => intro c u dep n r hr; cases hr
  | succ fuel ih =>
    intro c u dep n r hr
    cases n with
    | leaf => cases hr
    | node lo p hi =>
      simp only [kdRemove] at hr
      by_cases hfound : p.c = c ∧ p.uid = u
      · rw [if_pos hfound] at hr
        have hpx : (⟨c, u⟩ : kdpoint) = p := by
          obtain ⟨h1, h2⟩ := hfound
          rw [← h1, ← h2]
        have hmemhere : (⟨c, u⟩ : kdpoint) ∈ members (kdnode.node lo p hi) := by
          rw [members_node, hpx]
          exact List.mem_append_right _ (List.mem_cons_self _ _)
        cases hmk : minKey (dep % nd) (members hi) with
        | some m =>
          cases hrem : kdRemove nd b fuel m.c m.uid (dep+1) hi with
          | none => simp [hmk, hrem] at hr
          | some hi2 =>
            simp only [hmk, hrem, Option.some.injEq] at hr
            subst hr
            obtain ⟨hmemM, hmm⟩ := ih m.c m.uid (dep+1) _ hi2 hrem
            have hmeta : (⟨m.c, m.uid⟩ : kdpoint) = m := rfl
            rw [hmeta] at hmemM hmm
            refine ⟨hmemhere, ?_⟩
            rw [rebal_mems, members_node, members_node]
            simp only [← Multiset.coe_add, ← Multiset.cons_coe]
            rw [hmm, hpx,
              Multiset.erase_add_right_pos _ (Multiset.mem_cons_self p _),
              Multiset.erase_cons_head,
              Multiset.cons_erase (Multiset.mem_coe.mpr hmemM)]
        | none =>
          have hhi : members hi = [] := (minKey_eq_none _ _).mp hmk
          cases hmk2 : maxKey (dep % nd) (members lo) with
          | some m =>
            cases hrem : kdRemove nd b fuel m.c m.uid (dep+1) lo with
            | none => simp [hmk, hmk2, hrem] at hr
            | some lo2 =>
              simp only [hmk, hmk2, hrem, Option.some.injEq] at hr
              subst hr
              obtain ⟨hmemM, hmm⟩ := ih m.c m.uid (dep+1) _ lo2 hrem
              have hmeta : (⟨m.c, m.uid⟩ : kdpoint) = m := rfl
              rw [hmeta] at hmemM hmm
              refine ⟨hmemhere, ?_⟩
              rw [rebal_mems, members_node, members_node]
              have hml : members kdnode.leaf = [] := rfl
              rw [hml, hhi]
              simp only [← Multiset.coe_add, ← Multiset.cons_coe, Multiset.coe_nil]
              rw [hmm, hpx,
                Multiset.erase_add_right_pos _ (Multiset.mem_cons_self p _),
                Multiset.erase_cons_head]
              simp only [Multiset.add_cons, add_zero]
              exact Multiset.cons_erase (Multiset.mem_coe.mpr hmemM)
          | none =>
            have hlo : members lo = [] := (maxKey_eq_none _ _).mp hmk2
            simp only [hmk, hmk2, Option.some.injEq] at hr
            subst hr
            refine ⟨hmemhere, ?_⟩
            rw [members_node, hlo, hhi]
            simp [members, hpx]
      · rw [if_neg hfound] at hr
        have hne : p ≠ (⟨c, u⟩ : kdpoint) := by
          intro he
          exact hfound (by rw [he]; exact ⟨rfl, rfl⟩)
        by_cases hlt : c.getD (dep % nd) 0 < coordAt p (dep % nd)
        · rw [if_pos hlt] at hr
          cases hrem : kdRemove nd b fuel c u (dep+1) lo with
          | none => simp [hrem] at hr
          | some lo2 =>
            simp only [hrem, Option.some.injEq] at hr
            subst hr
            obtain ⟨hmem, hmm⟩ := ih c u (dep+1) _ lo2 hrem
            constructor
            · rw [members_node]
              exact List.mem_append_left _ hmem
            · rw [rebal_mems, members_node, members_node]
              simp only [← Multiset.coe_add, ← Multiset.cons_coe]
              rw [hmm, Multiset.erase_add_left_pos _ (Multiset.mem_coe.mpr hmem)]
        · rw [if_neg hlt] at hr
          by_cases hgt2 : coordAt p (dep % nd) < c.getD (dep % nd) 0
          · rw [if_pos hgt2] at hr
            cases hrem : kdRemove nd b fuel c u (dep+1) hi with
            | none => simp [hrem] at hr
            | some hi2 =>
              simp only [hrem, Option.some.injEq] at hr
              subst hr
              obtain ⟨hmem, hmm⟩ := ih c u (dep+1) _ hi2 hrem
              constructor
              · rw [members_node]
                exact List.mem_append_right _ (List.mem_cons_of_mem _ hmem)
              · rw [rebal_mems, members_node, members_node]
                simp only [← Multiset.coe_add, ← Multiset.cons_coe]
                rw [hmm,
                  Multiset.erase_add_right_pos _
                    (Multiset.mem_cons_of_mem (Multiset.mem_coe.mpr hmem)),
                  Multiset.erase_cons_tail _ hne]
          · rw [if_neg hgt2] at hr
            cases hrem : kdRemove nd b fuel c u (dep+1) lo with
            | some lo2 =>
              simp only [hrem, Option.some.injEq] at hr
              subst hr
              obtain ⟨hmem, hmm⟩ := ih c u (dep+1) _ lo2 hrem
              constructor
              · rw [members_node]
                exact List.mem_append_left _ hmem
              · rw [rebal_mems, members_node, members_node]
                simp only [← Multiset.coe_add, ← Multiset.cons_coe]
                rw [hmm, Multiset.erase_add_left_pos _ (Multiset.mem_coe.mpr hmem)]
            | none =>
              cases hrem2 : kdRemove nd b fuel c u (dep+1) hi with
              | none => simp [hrem, hrem2] at hr
              | some hi2 =>
                simp only [hrem, hrem2, Option.some.injEq] at hr
                subst hr
                obtain ⟨hmem, hmm⟩ := ih c u (dep+1) _ hi2 hrem2
                constructor
                · rw [members_node]
                  exact List.mem_append_right _ (List.mem_cons_of_mem _ hmem)
                · rw [rebal_mems, members_node, members_node]
                  simp only [← Multiset.coe_add, ← Multiset.cons_coe]
                  rw [hmm,
                    Multiset.erase_add_right_pos _
                      (Multiset.mem_cons_of_mem (Multiset.mem_coe.mpr hmem)),
                    Multiset.erase_cons_tail _ hne]

theorem mem_of_mems_erase {n n2 : kdnode} {x : kdpoint}
    (h : (members n2 : Multiset kdpoint) = ((members n : Multiset kdpoint)).erase x) :
    ∀ q ∈ members n2, q ∈ members n := by
  intro q hq
  have hq2 : q ∈ (members n2 : Multiset kdpoint) := Multiset.mem_coe.mpr hq
  rw [h] at hq2
  exact Multiset.mem_coe.mp (Multiset.mem_of_le (Multiset.erase_le _ _) hq2)

theorem kdRemove_found (nd : Nat) (b : Int) :
    ∀ fuel (c : List Int) (u : Int) dep (n : kdnode),
    tsize n ≤ fuel → orderedb nd dep n = true → (⟨c, u⟩ : kdpoint) ∈ members n →
    ∃ r, kdRemove nd b fuel c u dep n = some r := by
  intro fuel
  induction fuel with
  | zero =>
    intro c u dep n hsz _ hmem
    cases n with
    | leaf => simp [members] at hmem
    | node lo p hi => simp [tsize] at hsz
  | succ fuel ih =>
    intro c u dep n hsz hord hmem
    cases n with
    | leaf => simp [members] at hmem
    | node lo p hi =>
      rcases (orderedb_node nd dep lo p hi).mp hord with ⟨hL, hH, hol, hoh⟩
      have hszlo : tsize lo ≤ fuel := by simp [tsize] at hsz; omega
      have hszhi : tsize hi ≤ fuel := by simp [tsize] at hsz; omega
      simp only [kdRemove]
      by_cases hfound : p.c = c ∧ p.uid = u
      · rw [if_pos hfound]
        cases hmk : minKey (dep % nd) (members hi) with
        | some m =>
          have hmMem : m ∈ members hi := minKey_mem _ _ _ hmk
          have hmeta : (⟨m.c, m.uid⟩ : kdpoint) = m := rfl
          rcases ih m.c m.uid (dep+1) hi hszhi hoh (by rw [hmeta]; exact hmMem)
            with ⟨hi2, hrem⟩
          simp only [hrem]
          exact ⟨_, rfl⟩
        | none =>
          cases hmk2 : maxKey (dep % nd) (members lo) with
          | some m =>
            have hmMem : m ∈ members lo := maxKey_mem _ _ _ hmk2
            have hmeta : (⟨m.c, m.uid⟩ : kdpoint) = m := rfl
            rcases ih m.c m.uid (dep+1) lo hszlo hol (by rw [hmeta]; exact hmMem)
              with ⟨lo2, hrem⟩
            simp only [hrem]
            exact ⟨_, rfl⟩
          | none => exact ⟨_, rfl⟩
      · rw [if_neg hfound]
        have hx : (⟨c, u⟩ : kdpoint) ∈ members lo ∨ (⟨c, u⟩ : kdpoint) ∈ members hi := by
          rw [members_node] at hmem
          rcases List.mem_append.mp hmem with h | h
          · exact Or.inl h
          · rcases List.mem_cons.mp h with h | h
            · exact absurd ⟨by rw [← h], by rw [← h]⟩ hfound
            · exact Or.inr h
        have hcc : coordAt (⟨c, u⟩ : kdpoint) (dep % nd) = c.getD (dep % nd) 0 := rfl
        by_cases hlt : c.getD (dep % nd) 0 < coordAt p (dep % nd)
        · rw [if_pos hlt]
          have hxlo : (⟨c, u⟩ : kdpoint) ∈ members lo := by
            rcases hx with h | h
            · exact h
            · exact absurd (hH _ h) (not_le.mpr (by rw [hcc]; exact hlt))
          rcases ih c u (dep+1) lo hszlo hol hxlo with ⟨lo2, hrem⟩
          rw [hrem]
          exact ⟨_, rfl⟩
        · rw [if_neg hlt]
          by_cases hgt2 : coordAt p (dep % nd) < c.getD (dep % nd) 0
          · rw [if_pos hgt2]
            have hxhi : (⟨c, u⟩ : kdpoint) ∈ members hi := by
              rcases hx with h | h
              · exact absurd (hL _ h) (not_le.mpr (by rw [hcc]; exact hgt2))
              · exact h
            rcases ih c u (dep+1) hi hszhi hoh hxhi with ⟨hi2, hrem⟩
            rw [hrem]
            exact ⟨_, rfl⟩
          · rw [if_neg hgt2]
            cases hrem : kdRemove nd b fuel c u (dep+1) lo with
            | some lo2 => exact ⟨_, rfl⟩
            | none =>
              have hxhi : (⟨c, u⟩ : kdpoint) ∈ members hi := by
                rcases hx with h | h
                · rcases ih c u (dep+1) lo hszlo hol h with ⟨lo2, hrem2⟩
                  rw [hrem2] at hrem
                  cases hrem
                · exact h
              rcases ih c u (dep+1) hi hszhi hoh hxhi with ⟨hi2, hrem2⟩
              rw [hrem2]
              exact ⟨_, rfl⟩

theorem kdRemove_ordered (nd : Nat) (b : Int) :
    ∀ fuel (c : List Int) (u : Int) dep (n r : kdnode),
    kdRemove nd b fuel c u dep n = some r → orderedb nd dep n = true →
    orderedb nd dep r = true := by
  intro fuel
  induction fuel with
  | zero => intro c u dep n r hr; cases hr
  | succ fuel ih =>
    intro c u dep n r hr hord
    cases n with
    | leaf => cases hr
    | node lo p hi =>
      rcases (orderedb_node nd dep lo p hi).mp hord with ⟨hL, hH, hol, hoh⟩
      simp only [kdRemove] at hr
      by_cases hfound : p.c = c ∧ p.uid = u
      · rw [if_pos hfound] at hr
        cases hmk : minKey (dep % nd) (members hi) with
        | some m =>
          cases hrem : kdRemove nd b fuel m.c m.uid (dep+1) hi with
          | none => simp [hmk, hrem] at hr
          | some hi2 =>
            simp only [hmk, hrem, Option.some.injEq] at hr
            subst hr
            have hmMem : m ∈ members hi := minKey_mem _ _ _ hmk
            have hsub := mem_of_mems_erase (kdRemove_mems nd b fuel m.c m.uid (dep+1) hi hi2 hrem).2
            apply rebal_ordered
            rw [orderedb_node]
            refine ⟨?_, ?_, hol, ih m.c m.uid (dep+1) hi hi2 hrem hoh⟩
            · intro q hq
              exact le_trans (hL q hq) (hH m hmMem)
            · intro q hq
              exact minKey_le _ _ _ hmk q (hsub q hq)
        | none =>
          cases hmk2 : maxKey (dep % nd) (members lo) with
          | some m =>
            cases hrem : kdRemove nd b fuel m.c m.uid (dep+1) lo with
            | none => simp [hmk, hmk2, hrem] at hr
            | some lo2 =>
              simp only [hmk, hmk2, hrem, Option.some.injEq] at hr
              subst hr
              have hsub := mem_of_mems_erase (kdRemove_mems nd b fuel m.c m.uid (dep+1) lo lo2 hrem).2
              apply rebal_ordered
              rw [orderedb_node]
              refine ⟨?_, ?_, ih m.c m.uid (dep+1) lo lo2 hrem hol, rfl⟩
              · intro q hq
                exact maxKey_ge _ _ _ hmk2 q (hsub q hq)
              · intro q hq
                simp [members] at hq
          | none =>
            simp only [hmk, hmk2, Option.some.injEq] at hr
            subst hr
            rfl
      · rw [if_neg hfound] at hr
        by_cases hlt : c.getD (dep % nd) 0 < coordAt p (dep % nd)
        · rw [if_pos hlt] at hr
          cases hrem : kdRemove nd b fuel c u (dep+1) lo with
          | none => simp [hrem] at hr
          | some lo2 =>
            simp only [hrem, Option.some.injEq] at hr
            subst hr
            have hsub := mem_of_mems_erase (kdRemove_mems nd b fuel c u (dep+1) lo lo2 hrem).2
            apply rebal_ordered
            rw [orderedb_node]
            exact ⟨fun q hq => hL q (hsub q hq), hH, ih c u (dep+1) lo lo2 hrem hol, hoh⟩
        · rw [if_neg hlt] at hr
          by_cases hgt2 : coordAt p (dep % nd) < c.getD (dep % nd) 0
          · rw [if_pos hgt2] at hr
            cases hrem : kdRemove nd b fuel c u (dep+1) hi with
            | none => simp [hrem] at hr
            | some hi2 =>
              simp only [hrem, Option.some.injEq] at hr
              subst hr
              have hsub := mem_of_mems_erase (kdRemove_mems nd b fuel c u (dep+1) hi hi2 hrem).2
              apply rebal_ordered
              rw [orderedb_node]
              exact ⟨hL, fun q hq => hH q (hsub q hq), hol, ih c u (dep+1) hi hi2 hrem hoh⟩
          · rw [if_neg hgt2] at hr
            cases hrem : kdRemove nd b fuel c u (dep+1) lo with
            | some lo2 =>
              simp only [hrem, Option.some.injEq] at hr
              subst hr
              have hsub := mem_of_mems_erase (kdRemove_mems nd b fuel c u (dep+1) lo lo2 hrem).2
              apply rebal_ordered
              rw [orderedb_node]
              exact ⟨fun q hq => hL q (hsub q hq), hH, ih c u (dep+1) lo lo2 hrem hol, hoh⟩
            | none =>
              cases hrem2 : kdRemove nd b fuel c u (dep+1) hi with
              | none => simp [hrem, hrem2] at hr
              | some hi2 =>
                simp only [hrem, hrem2, Option.some.injEq] at hr
                subst hr
                have hsub := mem_of_mems_erase (kdRemove_mems nd b fuel c u (dep+1) hi hi2 hrem2).2
                apply rebal_ordered
                rw [orderedb_node]
                exact ⟨hL, fun q hq => hH q (hsub q hq), hol, ih c u (dep+1) hi hi2 hrem2 hoh⟩

theorem kdRemove_balanced (nd : Nat) (b : Int) :
    ∀ fuel (c : List Int) (u : Int) dep (n r : kdnode),
    kdRemove nd b fuel c u dep n = some r → balancedb (max b 1) n = true →
    balancedb (max b 1) r = true := by
  intro fuel
  induction fuel with
  | zero => intro c u dep n r hr; cases hr
  | succ fuel ih =>
    intro c u dep n r hr hbal
    cases n with
    | leaf => cases hr
    | node lo p hi =>
      rcases (balancedb_node (max b 1) lo p hi).mp hbal with ⟨hN, hbl, hbh⟩
      simp only [kdRemove] at hr
      by_cases hfound : p.c = c ∧ p.uid = u
      · rw [if_pos hfound] at hr
        cases hmk : minKey (dep % nd) (members hi) with
        | some m =>
          cases hrem : kdRemove nd b fuel m.c m.uid (dep+1) hi with
          | none => simp [hmk, hrem] at hr
          | some hi2 =>
            simp only [hmk, hrem, Option.some.injEq] at hr
            subst hr
            exact rebal_balanced nd b dep lo m hi2 hbl (ih m.c m.uid (dep+1) hi hi2 hrem hbh)
        | none =>
          cases hmk2 : maxKey (dep % nd) (members lo) with
          | some m =>
            cases hrem : kdRemove nd b fuel m.c m.uid (dep+1) lo with
            | none => simp [hmk, hmk2, hrem] at hr
            | some lo2 =>
              simp only [hmk, hmk2, hrem, Option.some.injEq] at hr
              subst hr
              exact rebal_balanced nd b dep lo2 m .leaf
                (ih m.c m.uid (dep+1) lo lo2 hrem hbl) rfl
          | none =>
            simp only [hmk, hmk2, Option.some.injEq] at hr
            subst hr
            rfl
      · rw [if_neg hfound] at hr
        by_cases hlt : c.getD (dep % nd) 0 < coordAt p (dep % nd)
        · rw [if_pos hlt] at hr
          cases hrem : kdRemove nd b fuel c u (dep+1) lo with
          | none => simp [hrem] at hr
          | some lo2 =>
            simp only [hrem, Option.some.injEq] at hr
            subst hr
            exact rebal_balanced nd b dep lo2 p hi (ih c u (dep+1) lo lo2 hrem hbl) hbh
        · rw [if_neg hlt] at hr
          by_cases hgt2 : coordAt p (dep % nd) < c.getD (dep % nd) 0
          · rw [if_pos hgt2] at hr
            cases hrem : kdRemove nd b fuel c u (dep+1) hi with
            | none => simp [hrem] at hr
            | some hi2 =>
              simp only [hrem, Option.some.injEq] at hr
              subst hr
              exact rebal_balanced nd b dep lo p hi2 hbl (ih c u (dep+1) hi hi2 hrem hbh)
          · rw [if_neg hgt2] at hr
            cases hrem : kdRemove nd b fuel c u (dep+1) lo with
            | some lo2 =>
              simp only [hrem, Option.some.injEq] at hr
              subst hr
              exact rebal_balanced nd b dep lo2 p hi (ih c u (dep+1) lo lo2 hrem hbl) hbh
            | none =>
              cases hrem2 : kdRemove nd b fuel c u (dep+1) hi with
              | none => simp [hrem, hrem2] at hr
              | some hi2 =>
                simp only [hrem, hrem2, Option.some.injEq] at hr
                subst hr
                exact rebal_balanced nd b dep lo p hi2 hbl (ih c u (dep+1) hi hi2 hrem2 hbh)

/-! ### The bounded result set of the knn search -/

theorem offer_sorted {k : Nat} {res : List (Int × Int)} (x : Int × Int)
    (hs : res.Pairwise (fun a b => a.2 ≤ b.2)) :
    (offer k res x).Pairwise (fun a b => a.2 ≤ b.2) :=
  (insortK_sorted Prod.snd x res hs).sublist (List.take_sublist _ _)

theorem offer_length {k : Nat} (res : List (Int × Int)) (x : Int × Int) :
    (offer k res x).length = min (res.length + 1) k := by
  simp only [offer, List.length_take, (insortK_perm Prod.snd x res).length_eq]
  simp [List.length_cons, Nat.min_comm]

theorem le_worstD : ∀ {res : List (Int × Int)},
    res.Pairwise (fun a b => a.2 ≤ b.2) →
    ∀ y ∈ res, y.2 ≤ worstD res := by
  intro res
  induction res with
  | nil => intro _ y hy; cases hy
  | cons a l ih =>
    intro hs y hy
    rcases List.pairwise_cons.mp hs with ⟨ha, hl⟩
    cases l with
    | nil =>
      rcases List.mem_cons.mp hy with rfl | hy2
      · exact le_refl _
      · cases hy2
    | cons b l2 =>
      have hw : worstD (a :: b :: l2) = worstD (b :: l2) := rfl
      rw [hw]
      rcases List.mem_cons.mp hy with rfl | hy2
      · exact le_trans (ha b (List.mem_cons_self _ _))
          (ih hl b (List.mem_cons_self _ _))
      · exact ih hl y hy2

theorem offer_full_noop {k : Nat} {res : List (Int × Int)} {x : Int × Int}
    (hk : res.length = k) (hs : res.Pairwise (fun a b => a.2 ≤ b.2))
    (hw : worstD res ≤ x.2) : offer k res x = res := by
  have hins : insortK Prod.snd x res = res ++ [x] := by
    apply insortK_append
    intro y hy
    exact not_lt.mpr (le_trans (le_worstD hs y hy) hw)
  rw [offer, hins, ← hk, List.take_left]

theorem foldl_offer_noop {k : Nat} {res : List (Int × Int)} (hk : res.length = k)
    (hs : res.Pairwise (fun a b => a.2 ≤ b.2)) :
    ∀ L : List (Int × Int), (∀ x ∈ L, worstD res ≤ x.2) →
    List.foldl (offer k) res L = res := by
  intro L
  induction L with
  | nil => intro _; rfl
  | cons x L2 ih =>
    intro hall
    simp only [List.foldl_cons]
    rw [offer_full_noop hk hs (hall x (List.mem_cons_self _ _))]
    exact ih (fun y hy => hall y (List.mem_cons_of_mem _ hy))

theorem map_snd_offer (k : Nat) (res : List (Int × Int)) (x : Int × Int) :
    (offer k res x).map Prod.snd = (insortK id x.2 (res.map Prod.snd)).take k := by
  rw [offer, List.map_take, map_snd_insortK]

theorem map_snd_foldl_offer (k : Nat) (L : List (Int × Int)) :
    (List.foldl (offer k) [] L).map Prod.snd = (isortK id (L.map Prod.snd)).take k := by
  induction L using List.reverseRecOn with
  | nil => simp [isortK]
  | append_singleton L x ih =>
    rw [List.foldl_append]
    simp only [List.foldl_cons, List.foldl_nil]
    rw [map_snd_offer, ih, take_insortI_take]
    have hms : (L ++ [x]).map Prod.snd = L.map Prod.snd ++ [x.2] := by simp
    rw [hms, isortI_snoc]

theorem length_foldl_offer (k : Nat) (L : List (Int × Int)) :
    (List.foldl (offer k) [] L).length = min L.length k := by
  induction L using List.reverseRecOn with
  | nil => simp
  | append_singleton L x ih =>
    rw [List.foldl_append]
    simp only [List.foldl_cons, List.foldl_nil]
    rw [offer_length, ih, List.length_append]
    simp
    omega

theorem mem_offer {k : Nat} {res : List (Int × Int)} {x : Int × Int} :
    ∀ y ∈ offer k res x, y = x ∨ y ∈ res := by
  intro y hy
  have h1 : y ∈ insortK Prod.snd x res := List.mem_of_mem_take hy
  exact List.mem_cons.mp ((insortK_perm Prod.snd x res).mem_iff.mp h1)

theorem mem_foldl_offer {k : Nat} :
    ∀ (L : List (Int × Int)) (res : List (Int × Int)),
    ∀ y ∈ List.foldl (offer k) res L, y ∈ res ∨ y ∈ L := by
  intro L
  induction L with
  | nil => intro res y hy; exact Or.inl hy
  | cons x L2 ih =>
    intro res y hy
    simp only [List.foldl_cons] at hy
    rcases ih _ y hy with h | h
    · rcases mem_offer _ h with rfl | h2
      · exact Or.inr (List.mem_cons_self _ _)
      · exact Or.inl h2
    · exact Or.inr (List.mem_cons_of_mem _ h)

theorem foldl_offer_sorted {k : Nat} :
    ∀ (L : List (Int × Int)) (res : List (Int × Int)),
    res.Pairwise (fun a b => a.2 ≤ b.2) →
    (List.foldl (offer k) res L).Pairwise (fun a b => a.2 ≤ b.2) := by
  intro L
  induction L with
  | nil => intro res hs; exact hs
  | cons x L2 ih =>
    intro res hs
    simp only [List.foldl_cons]
    exact ih _ (offer_sorted x hs)

theorem foldl_offer_len_le {k : Nat} :
    ∀ (L : List (Int × Int)) (res : List (Int × Int)),
    res.length ≤ k → (List.foldl (offer k) res L).length ≤ k := by
  intro L
  induction L with
  | nil => intro res h; exact h
  | cons x L2 ih =>
    intro res h
    simp only [List.foldl_cons]
    apply ih
    rw [offer_length]
    omega

/-! ### Geometry of squared distances -/

theorem sqdist_nonneg : ∀ (a b : List Int), 0 ≤ sqdist a b := by
  intro a
  induction a with
  | nil => intro b; simp [sqdist]
  | cons x xs ih =>
    intro b
    cases b with
    | nil => simp [sqdist]
    | cons y ys =>
      have h1 : 0 ≤ (x - y) * (x - y) := mul_self_nonneg _
      have h2 : 0 ≤ sqdist xs ys := ih ys
      simp only [sqdist, List.zipWith_cons_cons, List.sum_cons] at h2 ⊢
      omega

theorem sqdist_term_le : ∀ (d : Nat) (a b : List Int), d < a.length → d < b.length →
    (a.getD d 0 - b.getD d 0) * (a.getD d 0 - b.getD d 0) ≤ sqdist a b := by
  intro d
  induction d with
  | zero =>
    intro a b ha hb
    cases a with
    | nil => simp at ha
    | cons x xs =>
      cases b with
      | nil => simp at hb
      | cons y ys =>
        have h2 : 0 ≤ sqdist xs ys := sqdist_nonneg xs ys
        simp only [sqdist, List.zipWith_cons_cons, List.sum_cons, List.getD_cons_zero]
        simp only [sqdist] at h2
        omega
  | succ d ih =>
    intro a b ha hb
    cases a with
    | nil => simp at ha
    | cons x xs =>
      cases b with
      | nil => simp at hb
      | cons y ys =>
        have h1 : 0 ≤ (x - y) * (x - y) := mul_self_nonneg _
        have h2 := ih xs ys (by simpa using ha) (by simpa using hb)
        simp only [sqdist, List.zipWith_cons_cons, List.sum_cons, List.getD_cons_succ]
        simp only [sqdist] at h2
        omega

theorem sqdist_eq_zero : ∀ (a b : List Int), a.length = b.length →
    (sqdist a b = 0 ↔ a = b) := by
  intro a
  induction a with
  | nil =>
    intro b hb
    cases b with
    | nil => simp [sqdist]
    | cons y ys => simp at hb
  | cons x xs ih =>
    intro b hb
    cases b with
    | nil => simp at hb
    | cons y ys =>
      have hlen : xs.length = ys.length := by simpa using hb
      have h1 : 0 ≤ (x - y) * (x - y) := mul_self_nonneg _
      have h2 : 0 ≤ sqdist xs ys := sqdist_nonneg xs ys
      simp only [sqdist, List.zipWith_cons_cons, List.sum_cons]
      constructor
      · intro h
        have hx : (x - y) * (x - y) = 0 ∧ sqdist xs ys = 0 := by
          simp only [sqdist] at h2 ⊢
          omega
        have hxy : x = y := by
          have := mul_self_eq_zero.mp hx.1
          omega
        have := (ih ys hlen).mp hx.2
        rw [hxy, this]
      · intro h
        injection h with h1 h2
        subst h1
        subst h2
        have := (ih xs rfl).mpr rfl
        simp only [sqdist] at this
        simp [this]

theorem sqdist_self : ∀ (a : List Int), sqdist a a = 0 := by
  intro a
  induction a with
  | nil => rfl
  | cons x xs ih =>
    simp only [sqdist, List.zipWith_cons_cons, List.sum_cons]
    simp only [sqdist] at ih
    simp [ih]

theorem dimsb_node (nd : Nat) (lo : kdnode) (p : kdpoint) (hi : kdnode) :
    dimsb nd (.node lo p hi) = true ↔
      dimsb nd lo = true ∧ p.c.length = nd ∧ dimsb nd hi = true := by
  rw [dimsb_iff, dimsb_iff, dimsb_iff, members_node]
  constructor
  · intro h
    exact ⟨fun q hq => h q (List.mem_append_left _ hq),
      h p (List.mem_append_right _ (List.mem_cons_self _ _)),
      fun q hq => h q (List.mem_append_right _ (List.mem_cons_of_mem _ hq))⟩
  · intro ⟨h1, h2, h3⟩ q hq
    rcases List.mem_append.mp hq with h | h
    · exact h1 q h
    · rcases List.mem_cons.mp h with rfl | h
      · exact h2
      · exact h3 q h

theorem perm_rot {α : Type} (A B C : List α) :
    (A ++ (B ++ C)).Perm (B ++ (A ++ C)) := by
  rw [← List.append_assoc, ← List.append_assoc]
  exact List.Perm.append_right C List.perm_append_comm

/-! ### The knn search as a fold over the eligible points -/

theorem knnVisit_fold (nd k : Nat) (q : List Int) (skip : Option Int) (hnd : 1 ≤ nd)
    (hq : q.length = nd) :
    ∀ (n : kdnode) (dep : Nat) (res : List (Int × Int)),
    orderedb nd dep n = true → dimsb nd n = true →
    res.Pairwise (fun a b => a.2 ≤ b.2) → res.length ≤ k →
    ∃ L : List (Int × Int),
      L.Perm (((members n).filter (elig skip)).map (pnd q)) ∧
      knnVisit nd k q skip n dep res = List.foldl (offer k) res L := by
  intro n
  induction n with
  | leaf =>
    intro dep res _ _ _ _
    exact ⟨[], by simp [members], rfl⟩
  | node lo p hi ihl ihr =>
    intro dep res hord hdims hs hlen
    rcases (orderedb_node nd dep lo p hi).mp hord with ⟨hLo, hHi, hol, hoh⟩
    rcases (dimsb_node nd lo p hi).mp hdims with ⟨hdl, hdp, hdh⟩
    have hdlt : dep % nd < nd := Nat.mod_lt _ (by omega)
    have hql : dep % nd < q.length := by omega
    set Elo := ((members lo).filter (elig skip)).map (pnd q) with hElo
    set Ehi := ((members hi).filter (elig skip)).map (pnd q) with hEhi
    set Epp := (if elig skip p then [pnd q p] else []) with hEpp
    have hfil : ((members (kdnode.node lo p hi)).filter (elig skip)).map (pnd q)
        = Elo ++ (Epp ++ Ehi) := by
      rw [members_node, List.filter_append, List.filter_cons]
      by_cases he : elig skip p = true
      · simp only [he, if_true, List.map_append, List.map_cons, hEpp]
        rfl
      · have he2 : elig skip p = false := by
          revert he
          cases elig skip p <;> simp
        simp only [he2, Bool.false_eq_true, if_false, List.map_append, hEpp]
        rfl
    have hppfold : ∀ r0 : List (Int × Int),
        (if elig skip p then offer k r0 (pnd q p) else r0) = List.foldl (offer k) r0 Epp := by
      intro r0
      by_cases he : elig skip p = true
      · simp [he, hEpp]
      · have he2 : elig skip p = false := by
          revert he
          cases elig skip p <;> simp
        simp [he2, hEpp]
    have hboundFar : ∀ (far : kdnode), dimsb nd far = true →
        (∀ m ∈ members far,
          (q.getD (dep % nd) 0 - coordAt p (dep % nd)) *
          (q.getD (dep % nd) 0 - coordAt p (dep % nd)) ≤
          (m.c.getD (dep % nd) 0 - q.getD (dep % nd) 0) *
          (m.c.getD (dep % nd) 0 - q.getD (dep % nd) 0)) →
        ∀ x ∈ ((members far).filter (elig skip)).map (pnd q),
          (q.getD (dep % nd) 0 - coordAt p (dep % nd)) *
          (q.getD (dep % nd) 0 - coordAt p (dep % nd)) ≤ x.2 := by
      intro far hdf hplane x hx
      rcases List.mem_map.mp hx with ⟨m, hmfil, rfl⟩
      have hmmem : m ∈ members far := (List.mem_filter.mp hmfil).1
      have hmlen : m.c.length = nd := (dimsb_iff nd far).mp hdf m hmmem
      have hterm := sqdist_term_le (dep % nd) m.c q (by omega) hql
      have := hplane m hmmem
      calc (q.getD (dep % nd) 0 - coordAt p (dep % nd)) *
            (q.getD (dep % nd) 0 - coordAt p (dep % nd))
          ≤ (m.c.getD (dep % nd) 0 - q.getD (dep % nd) 0) *
            (m.c.getD (dep % nd) 0 - q.getD (dep % nd) 0) := this
        _ ≤ sqdist m.c q := hterm
        _ = (pnd q m).2 := rfl
    simp only [knnVisit]
    rw [hppfold res]
    by_cases hqd : q.getD (dep % nd) 0 ≤ coordAt p (dep % nd)
    · rw [if_pos hqd]
      obtain ⟨L1, hL1p, hL1e⟩ := ihl (dep+1) (List.foldl (offer k) res Epp) hol hdl
        (foldl_offer_sorted Epp res hs) (foldl_offer_len_le Epp res hlen)
      rw [hL1e]
      have hsort2 : (List.foldl (offer k) (List.foldl (offer k) res Epp) L1).Pairwise
          (fun a b => a.2 ≤ b.2) :=
        foldl_offer_sorted L1 _ (foldl_offer_sorted Epp res hs)
      have hlen2 : (List.foldl (offer k) (List.foldl (offer k) res Epp) L1).length ≤ k :=
        foldl_offer_len_le L1 _ (foldl_offer_len_le Epp res hlen)
      by_cases hsrch : (decide ((List.foldl (offer k) (List.foldl (offer k) res Epp) L1).length < k)
          || decide ((q.getD (dep % nd) 0 - coordAt p (dep % nd)) *
              (q.getD (dep % nd) 0 - coordAt p (dep % nd)) ≤
            worstD (List.foldl (offer k) (List.foldl (offer k) res Epp) L1))) = true
      · rw [if_pos hsrch]
        obtain ⟨L2, hL2p, hL2e⟩ := ihr (dep+1) _ hoh hdh hsort2 hlen2
        rw [hL2e]
        refine ⟨Epp ++ (L1 ++ L2), ?_, ?_⟩
        · rw [hfil]
          exact (List.Perm.append_left Epp (hL1p.append hL2p)).trans (perm_rot Epp Elo Ehi)
        · rw [List.foldl_append, List.foldl_append]
      · rw [if_neg hsrch]
        rw [Bool.or_eq_true, decide_eq_true_eq, decide_eq_true_eq] at hsrch
        push_neg at hsrch
        obtain ⟨hge, hwlt⟩ := hsrch
        have hfull : (List.foldl (offer k) (List.foldl (offer k) res Epp) L1).length = k :=
          le_antisymm hlen2 hge
        have hplane : ∀ m ∈ members hi,
            (q.getD (dep % nd) 0 - coordAt p (dep % nd)) *
            (q.getD (dep % nd) 0 - coordAt p (dep % nd)) ≤
            (m.c.getD (dep % nd) 0 - q.getD (dep % nd) 0) *
            (m.c.getD (dep % nd) 0 - q.getD (dep % nd) 0) := by
          intro m hm
          have h1 : coordAt p (dep % nd) ≤ m.c.getD (dep % nd) 0 := hHi m hm
          have h2 : q.getD (dep % nd) 0 ≤ coordAt p (dep % nd) := hqd
          nlinarith [sq_nonneg (m.c.getD (dep % nd) 0 - coordAt p (dep % nd))]
        have hnoop : List.foldl (offer k)
            (List.foldl (offer k) (List.foldl (offer k) res Epp) L1) Ehi =
            List.foldl (offer k) (List.foldl (offer k) res Epp) L1 := by
          apply foldl_offer_noop hfull hsort2
          intro x hx
          exact le_of_lt (lt_of_lt_of_le hwlt (hboundFar hi hdh hplane x hx))
        refine ⟨Epp ++ (L1 ++ Ehi), ?_, ?_⟩
        · rw [hfil]
          exact (List.Perm.append_left Epp (hL1p.append (List.Perm.refl Ehi))).trans
            (perm_rot Epp Elo Ehi)
        · rw [List.foldl_append, List.foldl_append, hnoop]
    · rw [if_neg hqd]
      obtain ⟨L1, hL1p, hL1e⟩ := ihr (dep+1) (List.foldl (offer k) res Epp) hoh hdh
        (foldl_offer_sorted Epp res hs) (foldl_offer_len_le Epp res hlen)
      rw [hL1e]
      have hsort2 : (List.foldl (offer k) (List.foldl (offer k) res Epp) L1).Pairwise
          (fun a b => a.2 ≤ b.2) :=
        foldl_offer_sorted L1 _ (foldl_offer_sorted Epp res hs)
      have hlen2 : (List.foldl (offer k) (List.foldl (offer k) res Epp) L1).length ≤ k :=
        foldl_offer_len_le L1 _ (foldl_offer_len_le Epp res hlen)
      by_cases hsrch : (decide ((List.foldl (offer k) (List.foldl (offer k) res Epp) L1).length < k)
          || decide ((q.getD (dep % nd) 0 - coordAt p (dep % nd)) *
              (q.getD (dep % nd) 0 - coordAt p (dep % nd)) ≤
            worstD (List.foldl (offer k) (List.foldl (offer k) res Epp) L1))) = true
      · rw [if_pos hsrch]
        obtain ⟨L2, hL2p, hL2e⟩ := ihl (dep+1) _ hol hdl hsort2 hlen2
        rw [hL2e]
        refine ⟨Epp ++ (L1 ++ L2), ?_, ?_⟩
        · rw [hfil]
          refine (List.Perm.append_left Epp ((hL1p.append hL2p).trans
            List.perm_append_comm)).trans (perm_rot Epp Elo Ehi)
        · rw [List.foldl_append, List.foldl_append]
      · rw [if_neg hsrch]
        rw [Bool.or_eq_true, decide_eq_true_eq, decide_eq_true_eq] at hsrch
        push_neg at hsrch
        obtain ⟨hge, hwlt⟩ := hsrch
        have hfull : (List.foldl (offer k) (List.foldl (offer k) res Epp) L1).length = k :=
          le_antisymm hlen2 hge
        have hplane : ∀ m ∈ members lo,
            (q.getD (dep % nd) 0 - coordAt p (dep % nd)) *
            (q.getD (dep % nd) 0 - coordAt p (dep % nd)) ≤
            (m.c.getD (dep % nd) 0 - q.getD (dep % nd) 0) *
            (m.c.getD (dep % nd) 0 - q.getD (dep % nd) 0) := by
          intro m hm
          have h1 : m.c.getD (dep % nd) 0 ≤ coordAt p (dep % nd) := hLo m hm
          have h2 : coordAt p (dep % nd) < q.getD (dep % nd) 0 := not_le.mp hqd
          nlinarith [sq_nonneg (m.c.getD (dep % nd) 0 - coordAt p (dep % nd))]
        have hnoop : List.foldl (offer k)
            (List.foldl (offer k) (List.foldl (offer k) res Epp) L1) Elo =
            List.foldl (offer k) (List.foldl (offer k) res Epp) L1 := by
          apply foldl_offer_noop hfull hsort2
          intro x hx
          exact le_of_lt (lt_of_lt_of_le hwlt (hboundFar lo hdl hplane x hx))
        refine ⟨Epp ++ (L1 ++ Elo), ?_, ?_⟩
        · rw [hfil]
          refine (List.Perm.append_left Epp ((hL1p.append (List.Perm.refl Elo)).trans
            List.perm_append_comm)).trans (perm_rot Epp Elo Ehi)
        · rw [List.foldl_append, List.foldl_append, hnoop]

/-! ### The dnn search as a filter over the stored points -/

theorem dnnVisit_filter (nd : Nat) (q : List Int) (skip : Option Int) (r2 : Int)
    (hnd : 1 ≤ nd) (hq : q.length = nd) :
    ∀ (n : kdnode) (dep : Nat),
    orderedb nd dep n = true → dimsb nd n = true →
    (dnnVisit nd q skip r2 n dep).Perm
      (((members n).filter
        (fun m => elig skip m && decide (sqdist m.c q ≤ r2))).map (pnd q)) := by
  intro n
  induction n with
  | leaf =>
    intro dep _ _
    simp [dnnVisit, members]
  | node lo p hi ihl ihr =>
    intro dep hord hdims
    rcases (orderedb_node nd dep lo p hi).mp hord with ⟨hLo, hHi, hol, hoh⟩
    rcases (dimsb_node nd lo p hi).mp hdims with ⟨hdl, hdp, hdh⟩
    have hdlt : dep % nd < nd := Nat.mod_lt _ (by omega)
    have hql : dep % nd < q.length := by omega
    set P := fun m : kdpoint => elig skip m && decide (sqdist m.c q ≤ r2) with hP
    set Flo := ((members lo).filter P).map (pnd q) with hFlo
    set Fhi := ((members hi).filter P).map (pnd q) with hFhi
    set Fpp := (if P p then [pnd q p] else []) with hFpp
    have hfil : ((members (kdnode.node lo p hi)).filter P).map (pnd q)
        = Flo ++ (Fpp ++ Fhi) := by
      rw [members_node, List.filter_append, List.filter_cons]
      by_cases he : P p = true
      · simp only [he, if_true, List.map_append, List.map_cons, hFpp]
        rfl
      · have he2 : P p = false := by
          revert he
          cases P p <;> simp
        simp only [he2, Bool.false_eq_true, if_false, List.map_append, hFpp]
        rfl
    have hfarlo : ¬ ((decide (q.getD (dep % nd) 0 ≤ coordAt p (dep % nd)) ||
          decide ((q.getD (dep % nd) 0 - coordAt p (dep % nd)) *
            (q.getD (dep % nd) 0 - coordAt p (dep % nd)) ≤ r2)) = true) →
        (members lo).filter P = [] := by
      intro hc
      rw [Bool.or_eq_true, decide_eq_true_eq, decide_eq_true_eq] at hc
      push_neg at hc
      obtain ⟨hpq, hr⟩ := hc
      rw [List.filter_eq_nil]
      intro m hm
      have h1 : m.c.getD (dep % nd) 0 ≤ coordAt p (dep % nd) := hLo m hm
      have hmlen : m.c.length = nd := (dimsb_iff nd lo).mp hdl m hm
      have hterm := sqdist_term_le (dep % nd) m.c q (by omega) hql
      have hdist : r2 < sqdist m.c q := by nlinarith
      simp only [hP, Bool.and_eq_true, decide_eq_true_eq, not_and]
      intro _
      omega
    have hfarhi : ¬ ((decide (coordAt p (dep % nd) ≤ q.getD (dep % nd) 0) ||
          decide ((q.getD (dep % nd) 0 - coordAt p (dep % nd)) *
            (q.getD (dep % nd) 0 - coordAt p (dep % nd)) ≤ r2)) = true) →
        (members hi).filter P = [] := by
      intro hc
      rw [Bool.or_eq_true, decide_eq_true_eq, decide_eq_true_eq] at hc
      push_neg at hc
      obtain ⟨hpq, hr⟩ := hc
      rw [List.filter_eq_nil]
      intro m hm
      have h1 : coordAt p (dep % nd) ≤ m.c.getD (dep % nd) 0 := hHi m hm
      have hmlen : m.c.length = nd := (dimsb_iff nd hi).mp hdh m hm
      have hterm := sqdist_term_le (dep % nd) m.c q (by omega) hql
      have hdist : r2 < sqdist m.c q := by nlinarith
      simp only [hP, Bool.and_eq_true, decide_eq_true_eq, not_and]
      intro _
      omega
    simp only [dnnVisit]
    have hhere : (if elig skip p && decide (sqdist p.c q ≤ r2) then [pnd q p] else [])
        = Fpp := rfl
    rw [hhere]
    have hlres : (if (decide (q.getD (dep % nd) 0 ≤ coordAt p (dep % nd)) ||
          decide ((q.getD (dep % nd) 0 - coordAt p (dep % nd)) *
            (q.getD (dep % nd) 0 - coordAt p (dep % nd)) ≤ r2)) = true then
          dnnVisit nd q skip r2 lo (dep+1) else []).Perm Flo := by
      by_cases hc : (decide (q.getD (dep % nd) 0 ≤ coordAt p (dep % nd)) ||
          decide ((q.getD (dep % nd) 0 - coordAt p (dep % nd)) *
            (q.getD (dep % nd) 0 - coordAt p (dep % nd)) ≤ r2)) = true
      · rw [if_pos hc]
        exact ihl (dep+1) hol hdl
      · rw [if_neg hc, hFlo, hfarlo hc]
        simp
    have hhres : (if (decide (coordAt p (dep % nd) ≤ q.getD (dep % nd) 0) ||
          decide ((q.getD (dep % nd) 0 - coordAt p (dep % nd)) *
            (q.getD (dep % nd) 0 - coordAt p (dep % nd)) ≤ r2)) = true then
          dnnVisit nd q skip r2 hi (dep+1) else []).Perm Fhi := by
      by_cases hc : (decide (coordAt p (dep % nd) ≤ q.getD (dep % nd) 0) ||
          decide ((q.getD (dep % nd) 0 - coordAt p (dep % nd)) *
            (q.getD (dep % nd) 0 - coordAt p (dep % nd)) ≤ r2)) = true
      · rw [if_pos hc]
        exact ihr (dep+1) hoh hdh
      · rw [if_neg hc, hFhi, hfarhi hc]
        simp
    rw [hfil, List.append_assoc]
    refine (List.Perm.append_left Fpp (hlres.append hhres)).trans (perm_rot Fpp Flo Fhi)

/-! ### Tree-level invariant preservation -/

theorem ValidR_create {n : Int} {b : Option Int} {t : kdtree}
    (h : kdtree_create n b = .ok t) : ValidR t := by
  simp only [kdtree_create] at h
  split at h
  · cases h
  next hnz =>
    injection h with h
    subst h
    exact ⟨Nat.pos_of_ne_zero hnz, rfl, rfl, rfl, rfl⟩

theorem kdtree_insert_mems (t : kdtree) (c : List Int) (u : Int) (dc : Bool)
    (h : (kdtree_insert t c u dc).1 = InsStatus.success) :
    (members (kdtree_insert t c u dc).2.root : Multiset kdpoint)
      = (⟨c, u⟩ : kdpoint) ::ₘ (members t.root : Multiset kdpoint) ∧
    (kdtree_insert t c u dc).2.count = t.count + 1 := by
  unfold kdtree_insert at h ⊢
  split at h
  · simp at h
  next hlen =>
    cases hins : kdInsert t.ndims t.btol c u dc 0 t.root with
    | none => simp [hins] at h
    | some r =>
      rw [if_neg hlen]
      simp only [hins]
      exact ⟨kdInsert_mems t.ndims t.btol c u dc t.root 0 r hins, by trivial⟩

theorem ValidR_insert (t : kdtree) (c : List Int) (u : Int) (dc : Bool) (h : ValidR t) :
    ValidR (kdtree_insert t c u dc).2 := by
  obtain ⟨h1, h2, h3, h4, h5⟩ := h
  unfold kdtree_insert
  by_cases hlen : c.length ≠ t.ndims
  · rw [if_pos hlen]
    exact ⟨h1, h2, h3, h4, h5⟩
  · rw [if_neg hlen]
    push_neg at hlen
    cases hins : kdInsert t.ndims t.btol c u dc 0 t.root with
    | none => exact ⟨h1, h2, h3, h4, h5⟩
    | some r =>
      have hmems := kdInsert_mems t.ndims t.btol c u dc t.root 0 r hins
      refine ⟨h1, kdInsert_ordered t.ndims t.btol c u dc t.root 0 r hins h2,
        kdInsert_balanced t.ndims t.btol c u dc t.root 0 r hins h3, ?_, ?_⟩
      · rw [dimsb_iff]
        intro p hp
        rcases (mems_cons_mem hmems p).mp hp with rfl | hp2
        · exact hlen
        · exact (dimsb_iff _ _).mp h4 p hp2
      · have hcard := congrArg Multiset.card hmems
        simp only [Multiset.coe_card, Multiset.card_cons] at hcard
        simp only [tsize_members] at h5 ⊢
        omega

theorem kdtree_remove_found (t : kdtree) (hV : ValidR t) (c : List Int) (u : Int)
    (hmem : (⟨c, u⟩ : kdpoint) ∈ members t.root) :
    (kdtree_remove t c u).1 = true ∧
    (members (kdtree_remove t c u).2.root : Multiset kdpoint)
      = ((members t.root : Multiset kdpoint)).erase ⟨c, u⟩ ∧
    (kdtree_remove t c u).2.count + 1 = t.count := by
  obtain ⟨h1, h2, h3, h4, h5⟩ := hV
  unfold kdtree_remove
  rcases kdRemove_found t.ndims t.btol (tsize t.root) c u 0 t.root (le_refl _) h2 hmem
    with ⟨r, hr⟩
  simp only [hr]
  obtain ⟨_, hmm⟩ := kdRemove_mems t.ndims t.btol (tsize t.root) c u 0 t.root r hr
  refine ⟨by trivial, hmm, ?_⟩
  have hpos : 1 ≤ (members t.root).length := by
    cases hml : members t.root with
    | nil => rw [hml] at hmem; cases hmem
    | cons a l => simp [hml]
  have h6 : t.count = (members t.root).length := by rw [h5, tsize_members]
  show t.count - 1 + 1 = t.count
  omega

theorem kdtree_remove_notfound (t : kdtree) (c : List Int) (u : Int)
    (hmem : (⟨c, u⟩ : kdpoint) ∉ members t.root) :
    kdtree_remove t c u = (false, t) := by
  unfold kdtree_remove
  cases hr : kdRemove t.ndims t.btol (tsize t.root) c u 0 t.root with
  | none => rfl
  | some r =>
    exact absurd (kdRemove_mems t.ndims t.btol (tsize t.root) c u 0 t.root r hr).1 hmem

theorem ValidR_remove (t : kdtree) (c : List Int) (u : Int) (h : ValidR t) :
    ValidR (kdtree_remove t c u).2 := by
  obtain ⟨h1, h2, h3, h4, h5⟩ := h
  unfold kdtree_remove
  cases hr : kdRemove t.ndims t.btol (tsize t.root) c u 0 t.root with
  | none => exact ⟨h1, h2, h3, h4, h5⟩
  | some r =>
    obtain ⟨hmem, hmm⟩ := kdRemove_mems t.ndims t.btol (tsize t.root) c u 0 t.root r hr
    refine ⟨h1, kdRemove_ordered t.ndims t.btol (tsize t.root) c u 0 t.root r hr h2,
      kdRemove_balanced t.ndims t.btol (tsize t.root) c u 0 t.root r hr h3, ?_, ?_⟩
    · rw [dimsb_iff]
      intro p hp
      exact (dimsb_iff _ _).mp h4 p (mem_of_mems_erase hmm p hp)
    · have hcard := congrArg Multiset.card hmm
      have hmc : (⟨c, u⟩ : kdpoint) ∈ (members t.root : Multiset kdpoint) :=
        Multiset.mem_coe.mpr hmem
      rw [Multiset.card_erase_of_mem hmc] at hcard
      simp only [Multiset.coe_card, Nat.pred_eq_sub_one] at hcard
      have hpos : 1 ≤ (members t.root).length := by
        cases hml : members t.root with
        | nil => rw [hml] at hmem; cases hmem
        | cons a l => simp [hml]
      simp only [tsize_members] at h5 ⊢
      omega

theorem ValidR_clear (t : kdtree) (h : ValidR t) : ValidR (kdtree_clear t) := by
  obtain ⟨h1, _, _, _, _⟩ := h
  exact ⟨h1, rfl, rfl, rfl, rfl⟩

theorem kdtree_optimize_mems (t : kdtree) (level : Int) :
    (members (kdtree_optimize t level).root : Multiset kdpoint)
      = (members t.root : Multiset kdpoint) := by
  unfold kdtree_optimize
  exact Multiset.coe_eq_coe.mpr
    (buildKd_members t.ndims (tsize t.root) 0 (members t.root) (by rw [tsize_members]))

theorem ValidR_optimize (t : kdtree) (level : Int) (h : ValidR t) :
    ValidR (kdtree_optimize t level) := by
  obtain ⟨h1, h2, h3, h4, h5⟩ := h
  have hfuel : (members t.root).length ≤ tsize t.root := by rw [tsize_members]
  refine ⟨h1, buildKd_ordered t.ndims (tsize t.root) 0 (members t.root) hfuel,
    buildKd_balanced t.ndims (max t.btol 1) (le_max_right _ _) (tsize t.root) 0
      (members t.root) hfuel, ?_, ?_⟩
  · rw [dimsb_iff]
    intro p hp
    have hperm := buildKd_members t.ndims (tsize t.root) 0 (members t.root) hfuel
    exact (dimsb_iff _ _).mp h4 p (hperm.mem_iff.mp hp)
  · have hperm := buildKd_members t.ndims (tsize t.root) 0 (members t.root) hfuel
    show t.count = tsize (buildKd t.ndims (tsize t.root) 0 (members t.root))
    rw [tsize_members, hperm.length_eq, ← tsize_members]
    exact h5

theorem reach_valid (t : kdtree) (h : Reach t) : ValidR t := by
  induction h with
  | created n b t hc => exact ValidR_create hc
  | ins t c u dc _ ih => exact ValidR_insert t c u dc ih
  | rem t c u _ ih => exact ValidR_remove t c u ih
  | clr t _ ih => exact ValidR_clear t ih
  | opt t lvl _ ih => exact ValidR_optimize t lvl ih

/-! ### Count accounting along a workload trace -/

theorem kdtree_insert_count (t : kdtree) (c : List Int) (u : Int) (dc : Bool) :
    (kdtree_insert t c u dc).2.count
      = t.count + (if (kdtree_insert t c u dc).1 = InsStatus.success then 1 else 0) := by
  unfold kdtree_insert
  split
  · simp
  · cases hins : kdInsert t.ndims t.btol c u dc 0 t.root with
    | none => simp
    | some r => simp

theorem kdtree_remove_count (t : kdtree) (hV : ValidR t) (c : List Int) (u : Int) :
    (kdtree_remove t c u).2.count
      + (if (kdtree_remove t c u).1 then 1 else 0) = t.count := by
  by_cases hmem : (⟨c, u⟩ : kdpoint) ∈ members t.root
  · obtain ⟨hfst, _, hcnt⟩ := kdtree_remove_found t hV c u hmem
    rw [hfst]
    simpa using hcnt
  · rw [kdtree_remove_notfound t c u hmem]
    simp

theorem applyTrace_count (ops : List KOp) : ∀ t : kdtree, ValidR t →
    (applyTrace t ops).1.count + (applyTrace t ops).2.2
      = t.count + (applyTrace t ops).2.1 := by
  induction ops with
  | nil => intro t _; simp [applyTrace]
  | cons op rest ih =>
    intro t hV
    cases op with
    | ins c u dc =>
      have hV2 := ValidR_insert t c u dc hV
      have hstep := kdtree_insert_count t c u dc
      have hrest := ih (kdtree_insert t c u dc).2 hV2
      simp only [applyTrace]
      omega
    | rem c u =>
      have hV2 := ValidR_remove t c u hV
      have hstep := kdtree_remove_count t hV c u
      have hrest := ih (kdtree_remove t c u).2 hV2
      simp only [applyTrace]
      omega

/-! ### Search results against the brute-force reference -/

theorem filter_elig_none (l : List kdpoint) : l.filter (elig none) = l :=
  List.filter_eq_self.mpr (fun _ _ => rfl)

theorem isortI_head_min (S : List Int) (hne : S ≠ []) :
    ∃ m rest, isortK id S = m :: rest ∧ m ∈ S ∧ ∀ s ∈ S, m ≤ s := by
  cases hs : isortK id S with
  | nil =>
    have hlen := (isortK_perm id S).length_eq
    rw [hs] at hlen
    cases S with
    | nil => exact absurd rfl hne
    | cons a l => simp at hlen
  | cons m rest =>
    refine ⟨m, rest, rfl, ?_, ?_⟩
    · have hm : m ∈ isortK id S := by
        rw [hs]
        exact List.mem_cons_self _ _
      exact (isortK_perm id S).mem_iff.mp hm
    · intro s hsS
      have hsmem : s ∈ isortK id S := (isortK_perm id S).mem_iff.mpr hsS
      rw [hs] at hsmem
      rcases List.mem_cons.mp hsmem with rfl | hrest
      · exact le_refl _
      · have hsorted := isortI_sorted S
        rw [hs] at hsorted
        exact (List.pairwise_cons.mp hsorted).1 s hrest

theorem knn_spec (t : kdtree) (hV : ValidR t) (q : List Int) (hq : q.length = t.ndims)
    (k : Int) (hk : 1 ≤ k) (skip : Option Int) :
    ∃ res : List (Int × Int),
      kdtree_knn t q k skip = .ok res ∧
      res.length = min k.toNat (eligList t skip).length ∧
      res.Pairwise (fun a b => a.2 ≤ b.2) ∧
      (∀ x ∈ res, x ∈ (eligList t skip).map (pnd q)) ∧
      res.map Prod.snd
        = (isortK id ((eligList t skip).map (fun m => sqdist m.c q))).take k.toNat := by
  obtain ⟨h1, h2, h3, h4, h5⟩ := hV
  have hko : ¬ k ≤ 0 := by omega
  obtain ⟨L, hLp, hLe⟩ := knnVisit_fold t.ndims k.toNat q skip h1 hq t.root 0 []
    h2 h4 (by simp) (by simp)
  refine ⟨knnVisit t.ndims k.toNat q skip t.root 0 [], ?_, ?_, ?_, ?_, ?_⟩
  · unfold kdtree_knn
    rw [if_neg hko, if_neg (not_not_intro hq)]
  · rw [hLe, length_foldl_offer, hLp.length_eq, List.length_map]
    simp only [eligList]
    exact Nat.min_comm _ _
  · rw [hLe]
    exact foldl_offer_sorted L [] (by simp)
  · intro x hx
    rw [hLe] at hx
    rcases mem_foldl_offer L [] x hx with h | h
    · cases h
    · have := hLp.mem_iff.mp h
      simpa [eligList] using this
  · rw [hLe, map_snd_foldl_offer]
    congr 1
    apply isortI_eq_of_perm
    have hmm := hLp.map Prod.snd
    have hcomp : ((((members t.root).filter (elig skip)).map (pnd q)).map Prod.snd)
        = ((members t.root).filter (elig skip)).map (fun m => sqdist m.c q) := by
      rw [List.map_map]
      rfl
    rw [hcomp] at hmm
    simpa [eligList] using hmm

theorem dnn_spec (t : kdtree) (hV : ValidR t) (q : List Int) (hq : q.length = t.ndims)
    (r : Int) (skip : Option Int) :
    ∃ res : List (Int × Int),
      kdtree_dnn t q r skip = .ok res ∧
      res.Perm (((members t.root).filter
        (fun m => elig skip m && decide (sqdist m.c q ≤ r * r))).map (pnd q)) := by
  obtain ⟨h1, h2, h3, h4, h5⟩ := hV
  refine ⟨dnnVisit t.ndims q skip (r * r) t.root 0, ?_, ?_⟩
  · unfold kdtree_dnn
    rw [if_neg (not_not_intro hq)]
  · exact dnnVisit_filter t.ndims q skip (r * r) h1 hq t.root 0 h2 h4

/-! ### Field-preservation wrappers -/

theorem kdtree_insert_fields (t : kdtree) (c : List Int) (u : Int) (dc : Bool) :
    (kdtree_insert t c u dc).2.ndims = t.ndims ∧ (kdtree_insert t c u dc).2.btol = t.btol := by
  unfold kdtree_insert
  split
  · exact ⟨rfl, rfl⟩
  · cases hins : kdInsert t.ndims t.btol c u dc 0 t.root with
    | none => exact ⟨rfl, rfl⟩
    | some r => exact ⟨rfl, rfl⟩

theorem kdtree_remove_fields (t : kdtree) (c : List Int) (u : Int) :
    (kdtree_remove t c u).2.ndims = t.ndims ∧ (kdtree_remove t c u).2.btol = t.btol := by
  unfold kdtree_remove
  cases hr : kdRemove t.ndims t.btol (tsize t.root) c u 0 t.root with
  | none => exact ⟨rfl, rfl⟩
  | some r => exact ⟨rfl, rfl⟩

theorem kdtree_insert_dc_success (t : kdtree) (c : List Int) (u : Int)
    (hlen : c.length = t.ndims) : (kdtree_insert t c u true).1 = InsStatus.success := by
  unfold kdtree_insert
  rw [if_neg (not_not_intro hlen)]
  rcases kdInsert_dc_some t.ndims t.btol c u t.root 0 with ⟨r, hr⟩
  rw [hr]

theorem kdtree_insert_success_len (t : kdtree) (c : List Int) (u : Int) (dc : Bool)
    (h : (kdtree_insert t c u dc).1 = InsStatus.success) : c.length = t.ndims := by
  unfold kdtree_insert at h
  split at h
  · simp at h
  next hlen => exact not_not.mp hlen

/-! ### The claims -/

/-- C1: for every tree satisfying the invariants, every query point of the
tree's dimensionality, every k ≥ 1 and every optional skip uid,
`kdtree_knn` succeeds; the number of neighbours returned is
min(k, number of eligible points) — less than k exactly when fewer than k
eligible points are stored; every returned (uid, squared distance) pair
belongs to a stored eligible point; the distances are listed ascending
and are exactly the k smallest squared distances the brute-force linear
scan over all eligible stored points would produce (the first k of the
sorted brute-force distance list; tie-breaking aside). -/
theorem c1_knn_matches_brute_force (t : kdtree) (hV : ValidR t) (q : List Int)
    (hq : q.length = t.ndims) (k : Int) (hk : 1 ≤ k) (skip : Option Int) :
    ∃ res : List (Int × Int),
      kdtree_knn t q k skip = .ok res ∧
      res.length = min k.toNat (eligList t skip).length ∧
      res.Pairwise (fun a b => a.2 ≤ b.2) ∧
      (∀ x ∈ res, x ∈ (eligList t skip).map (pnd q)) ∧
      res.map Prod.snd
        = (isortK id ((eligList t skip).map (fun m => sqdist m.c q))).take k.toNat :=
  knn_spec t hV q hq k hk skip

/-- Witness for C1 at a concrete one-point tree and query. -/
theorem c1_knn_matches_brute_force_witness :
    ∃ res : List (Int × Int),
      kdtree_knn (kdtree_insert (kdtree.mk 1 7 0 kdnode.leaf) [5] 3 true).2 [5] 1 none = .ok res ∧
      res.length = min (1 : Int).toNat (eligList (kdtree_insert (kdtree.mk 1 7 0 kdnode.leaf) [5] 3 true).2 none).length ∧
      res.Pairwise (fun a b => a.2 ≤ b.2) ∧
      (∀ x ∈ res, x ∈ (eligList (kdtree_insert (kdtree.mk 1 7 0 kdnode.leaf) [5] 3 true).2 none).map (pnd [5])) ∧
      res.map Prod.snd
        = (isortK id ((eligList (kdtree_insert (kdtree.mk 1 7 0 kdnode.leaf) [5] 3 true).2 none).map
            (fun m => sqdist m.c [5]))).take (1 : Int).toNat :=
  c1_knn_matches_brute_force (kdtree_insert (kdtree.mk 1 7 0 kdnode.leaf) [5] 3 true).2 (by decide) [5] (by decide) 1 (by decide) none

/-- C2: for every tree satisfying the invariants, every query point of the
tree's dimensionality, every max distance and every optional skip uid,
`kdtree_dnn` succeeds and returns exactly the set of stored eligible
points whose squared distance to the query is at most max distance
squared — as a permutation of the brute-force filter, hence no false
positives and no false negatives — and the returned count equals the
size of that filter, 0 being a valid outcome and not an error. -/
theorem c2_dnn_exact_radius (t : kdtree) (hV : ValidR t) (q : List Int)
    (hq : q.length = t.ndims) (r : Int) (skip : Option Int) :
    ∃ res : List (Int × Int),
      kdtree_dnn t q r skip = .ok res ∧
      res.Perm (((members t.root).filter
        (fun m => elig skip m && decide (sqdist m.c q ≤ r * r))).map (pnd q)) ∧
      res.length = ((members t.root).filter
        (fun m => elig skip m && decide (sqdist m.c q ≤ r * r))).length := by
  obtain ⟨res, h1, h2⟩ := dnn_spec t hV q hq r skip
  refine ⟨res, h1, h2, ?_⟩
  rw [h2.length_eq, List.length_map]

/-- Witness for C2 at a concrete one-point tree and query. -/
theorem c2_dnn_exact_radius_witness :
    ∃ res : List (Int × Int),
      kdtree_dnn (kdtree_insert (kdtree.mk 1 7 0 kdnode.leaf) [5] 3 true).2 [5] 2 none = .ok res ∧
      res.Perm (((members ((kdtree_insert (kdtree.mk 1 7 0 kdnode.leaf) [5] 3 true).2).root).filter
        (fun m => elig none m && decide (sqdist m.c [5] ≤ 2 * 2))).map (pnd [5])) ∧
      res.length = ((members ((kdtree_insert (kdtree.mk 1 7 0 kdnode.leaf) [5] 3 true).2).root).filter
        (fun m => elig none m && decide (sqdist m.c [5] ≤ 2 * 2))).length :=
  c2_dnn_exact_radius (kdtree_insert (kdtree.mk 1 7 0 kdnode.leaf) [5] 3 true).2 (by decide) [5] (by decide) 2 none

/-- C9: invalid arguments are rejected with `InvalidArgument`:
`kdtree_create` called with dimensionality 0 fails, and `kdtree_knn`
called with k ≤ 0, or with a query whose dimensionality mismatches the
tree's, fails; the model being purely functional, a rejected call
returns only the error and leaves the tree value untouched. -/
theorem c9_invalid_arguments (b : Option Int) (t : kdtree) (q : List Int) (k : Int)
    (skip : Option Int) :
    kdtree_create 0 b = .error KdError.invalidArgument ∧
    (k ≤ 0 → kdtree_knn t q k skip = .error KdError.invalidArgument) ∧
    (q.length ≠ t.ndims → kdtree_knn t q k skip = .error KdError.invalidArgument) := by
  refine ⟨rfl, ?_, ?_⟩
  · intro hk
    unfold kdtree_knn
    rw [if_pos hk]
  · intro hq
    unfold kdtree_knn
    by_cases hk : k ≤ 0
    · rw [if_pos hk]
    · rw [if_neg hk, if_pos hq]

/-- Witness for C9 at concrete invalid arguments. -/
theorem c9_invalid_arguments_witness :
    kdtree_create 0 none = .error KdError.invalidArgument ∧
    ((0 : Int) ≤ 0 → kdtree_knn (kdtree.mk 1 7 0 kdnode.leaf) [] 0 none
      = .error KdError.invalidArgument) ∧
    (([] : List Int).length ≠ (kdtree.mk 1 7 0 kdnode.leaf).ndims →
      kdtree_knn (kdtree.mk 1 7 0 kdnode.leaf) [] 0 none
        = .error KdError.invalidArgument) :=
  c9_invalid_arguments none (kdtree.mk 1 7 0 kdnode.leaf) [] 0 none

/-- C10: the public interface is byte-bounded: the header declares the
`kdtree_create` dimensionality parameter as a C `char` stored in an
unsigned byte field, so the effective dimensionality is reduced modulo
2^8 — creates 256 apart are indistinguishable, a created tree's stored
dimensionality is the caller's argument modulo 256 and always below
256 (and passing 256 wraps to dimensionality 0, which is rejected) —
and the per-node `unsigned char depth` field stores any true depth
reduced modulo 256, so depth 256 is stored as 0. -/
theorem c10_byte_bounded_interface (n : Int) (b : Option Int) (d : Nat) :
    kdtree_create (n + 256) b = kdtree_create n b ∧
    (∀ t : kdtree, kdtree_create n b = .ok t →
      t.ndims = (n.emod 256).toNat ∧ t.ndims < 256) ∧
    kdtree_create 256 b = .error KdError.invalidArgument ∧
    kdnode_depth_field d = d % 256 ∧ kdnode_depth_field 256 = 0 := by
  refine ⟨?_, ?_, rfl, rfl, rfl⟩
  · unfold kdtree_create
    have he : (n + 256).emod 256 = n.emod 256 := by
      have h0 : ∀ m : Int, m.emod 256 = m % 256 := fun _ => rfl
      rw [h0, h0]
      omega
    rw [he]
  · intro t ht
    simp only [kdtree_create] at ht
    split at ht
    · cases ht
    next hnz =>
      injection ht with ht
      subst ht
      refine ⟨rfl, ?_⟩
      have h1 : 0 ≤ n.emod 256 := Int.emod_nonneg n (by omega)
      have h2 : n.emod 256 < 256 := Int.emod_lt_of_pos n (by omega)
      show (n.emod 256).toNat < 256
      omega

/-- Witness for C10 at concrete arguments. -/
theorem c10_byte_bounded_interface_witness :
    kdtree_create (5 + 256) none = kdtree_create 5 none ∧
    (∀ t : kdtree, kdtree_create 5 none = .ok t →
      t.ndims = ((5 : Int).emod 256).toNat ∧ t.ndims < 256) ∧
    kdtree_create 256 none = .error KdError.invalidArgument ∧
    kdnode_depth_field 300 = 300 % 256 ∧ kdnode_depth_field 256 = 0 :=
  c10_byte_bounded_interface 5 none 300

/-- C3 (counterexample): the claim promises the depth difference stays
within the tree's own tolerance `btol` after every mutating operation,
but with tolerance 0 two successful inserts already leave a two-node
tree whose root has subtree depths 1 and 0 — no binary tree of two nodes
can do better, so the literal invariant is violated. -/
theorem c3_balance_counterexample :
    kdtree_create 1 (some 0) = .ok (kdtree.mk 1 0 0 kdnode.leaf) ∧
    (kdtree_insert (kdtree.mk 1 0 0 kdnode.leaf) [0] 1 true).1 = InsStatus.success ∧
    (kdtree_insert (kdtree_insert (kdtree.mk 1 0 0 kdnode.leaf) [0] 1 true).2 [1] 2 true).1 = InsStatus.success ∧
    balancedb (kdtree_insert (kdtree_insert (kdtree.mk 1 0 0 kdnode.leaf) [0] 1 true).2 [1] 2 true).2.btol (kdtree_insert (kdtree_insert (kdtree.mk 1 0 0 kdnode.leaf) [0] 1 true).2 [1] 2 true).2.root = false :=
  ⟨rfl, rfl, rfl, rfl⟩

/-- C3 (amended): after any sequence of public mutating operations
starting from a created tree, the invariants hold with the balance
tolerance relaxed to max(btol, 1): ordering I1, balance I2 within
max(btol, 1) (a two-node tree forces depth difference 1, so a tolerance
of 0 is unattainable), count = number of reachable nodes I3, and
dimensionality of every stored vector; I4 (no sharing, no cycles) holds
by construction of the inductive node store. -/
theorem c3_invariants_after_mutations (t : kdtree) (h : Reach t) : ValidR t :=
  reach_valid t h

/-- Witness for C3 (amended) at a freshly created tree. -/
theorem c3_invariants_after_mutations_witness :
    ValidR (kdtree.mk 1 7 0 kdnode.leaf) :=
  c3_invariants_after_mutations _ (Reach.created 1 none _ rfl)

/-- C6: count bookkeeping: along any trace of insert/remove calls the
final count plus the number of successful removes equals the initial
count plus the number of successful inserts (so from a created tree,
count = N − M); `kdtree_clear` resets count to 0 and the root to empty
while keeping dimensionality and tolerance; and count equals the number
of nodes reachable from the root. -/
theorem c6_count_consistency (t : kdtree) (hV : ValidR t) (ops : List KOp) :
    ((applyTrace t ops).1.count + (applyTrace t ops).2.2
        = t.count + (applyTrace t ops).2.1) ∧
    (∀ n b t0, kdtree_create n b = .ok t0 →
      (applyTrace t0 ops).1.count + (applyTrace t0 ops).2.2
        = (applyTrace t0 ops).2.1) ∧
    (kdtree_clear t).count = 0 ∧ (kdtree_clear t).root = kdnode.leaf ∧
    (kdtree_clear t).ndims = t.ndims ∧ (kdtree_clear t).btol = t.btol ∧
    t.count = tsize t.root := by
  refine ⟨applyTrace_count ops t hV, ?_, rfl, rfl, rfl, rfl, hV.2.2.2.2⟩
  intro n b t0 h0
  have hv0 := ValidR_create h0
  have htr := applyTrace_count ops t0 hv0
  have hc0 : t0.count = 0 := by
    simp only [kdtree_create] at h0
    split at h0
    · cases h0
    · injection h0 with h0
      subst h0
      rfl
  omega

/-- Witness for C6 on a concrete two-operation trace. -/
theorem c6_count_consistency_witness :
    ((applyTrace (kdtree.mk 1 7 0 kdnode.leaf) [KOp.ins [2] 1 true, KOp.rem [2] 1]).1.count
        + (applyTrace (kdtree.mk 1 7 0 kdnode.leaf) [KOp.ins [2] 1 true, KOp.rem [2] 1]).2.2
        = (kdtree.mk 1 7 0 kdnode.leaf).count
          + (applyTrace (kdtree.mk 1 7 0 kdnode.leaf) [KOp.ins [2] 1 true, KOp.rem [2] 1]).2.1) ∧
    (∀ n b t0, kdtree_create n b = .ok t0 →
      (applyTrace t0 [KOp.ins [2] 1 true, KOp.rem [2] 1]).1.count
        + (applyTrace t0 [KOp.ins [2] 1 true, KOp.rem [2] 1]).2.2
        = (applyTrace t0 [KOp.ins [2] 1 true, KOp.rem [2] 1]).2.1) ∧
    (kdtree_clear (kdtree.mk 1 7 0 kdnode.leaf)).count = 0 ∧
    (kdtree_clear (kdtree.mk 1 7 0 kdnode.leaf)).root = kdnode.leaf ∧
    (kdtree_clear (kdtree.mk 1 7 0 kdnode.leaf)).ndims = (kdtree.mk 1 7 0 kdnode.leaf).ndims ∧
    (kdtree_clear (kdtree.mk 1 7 0 kdnode.leaf)).btol = (kdtree.mk 1 7 0 kdnode.leaf).btol ∧
    (kdtree.mk 1 7 0 kdnode.leaf).count = tsize (kdtree.mk 1 7 0 kdnode.leaf).root :=
  c6_count_consistency (kdtree.mk 1 7 0 kdnode.leaf) (by decide)
    [KOp.ins [2] 1 true, KOp.rem [2] 1]

/-- C8 (counterexample): the claim asserts I1-I4 still hold after
`kdtree_optimize`, including the balance invariant at the tree's own
tolerance; with tolerance 0 a reachable two-point tree still has subtree
depth difference 1 after a full level-2 optimize, because no two-node
binary tree can do better. -/
theorem c8_optimize_balance_counterexample :
    kdtree_create 1 (some 0) = .ok (kdtree.mk 1 0 0 kdnode.leaf) ∧
    (kdtree_insert (kdtree.mk 1 0 0 kdnode.leaf) [0] 1 true).1 = InsStatus.success ∧
    (kdtree_insert (kdtree_insert (kdtree.mk 1 0 0 kdnode.leaf) [0] 1 true).2 [1] 2 true).1 = InsStatus.success ∧
    balancedb (kdtree_optimize (kdtree_insert (kdtree_insert (kdtree.mk 1 0 0 kdnode.leaf) [0] 1 true).2 [1] 2 true).2 2).btol (kdtree_optimize (kdtree_insert (kdtree_insert (kdtree.mk 1 0 0 kdnode.leaf) [0] 1 true).2 [1] 2 true).2 2).root = false :=
  ⟨rfl, rfl, rfl, rfl⟩

/-- C8 (amended): `kdtree_optimize` at any level never changes which
points are stored — the multiset of (coordinates, uid) pairs is
identical before and after, and `count` is unchanged — and the
invariants hold afterwards with the balance tolerance relaxed to
max(btol, 1) (tolerance 0 being unattainable for two-node trees);
I4 holds by construction of the inductive node store. -/
theorem c8_optimize_preserves_points (t : kdtree) (hV : ValidR t) (level : Int) :
    (members (kdtree_optimize t level).root : Multiset kdpoint)
      = (members t.root : Multiset kdpoint) ∧
    (kdtree_optimize t level).count = t.count ∧
    ValidR (kdtree_optimize t level) :=
  ⟨kdtree_optimize_mems t level, rfl, ValidR_optimize t level hV⟩

/-- Witness for C8 (amended) at a concrete one-point tree. -/
theorem c8_optimize_preserves_points_witness :
    (members (kdtree_optimize (kdtree_insert (kdtree.mk 1 7 0 kdnode.leaf) [5] 3 true).2 2).root : Multiset kdpoint)
      = (members ((kdtree_insert (kdtree.mk 1 7 0 kdnode.leaf) [5] 3 true).2).root : Multiset kdpoint) ∧
    (kdtree_optimize (kdtree_insert (kdtree.mk 1 7 0 kdnode.leaf) [5] 3 true).2 2).count = ((kdtree_insert (kdtree.mk 1 7 0 kdnode.leaf) [5] 3 true).2).count ∧
    ValidR (kdtree_optimize (kdtree_insert (kdtree.mk 1 7 0 kdnode.leaf) [5] 3 true).2 2) :=
  c8_optimize_preserves_points (kdtree_insert (kdtree.mk 1 7 0 kdnode.leaf) [5] 3 true).2 (by decide) 2

/-- C4 (counterexample): rebalancing can move a coordinate-equal node
off the descent path, after which a second insert of the same
coordinates with duplicates disallowed is accepted: with tolerance 0 in
two dimensions, inserting (0,3), (0,5), (0,9), (0,7) — all with
duplicates disallowed and all succeeding — triggers rebuilds that leave
the (0,5) node in a high subtree reached only on a coordinate tie, so a
fifth insert of (0,5) with duplicates disallowed also succeeds and the
tree ends up storing two points at position (0,5), contradicting the
claim that inserting the same coordinates twice with duplicates
disallowed leaves exactly one stored point at that position. -/
theorem c4_duplicate_missed_counterexample :
    kdtree_create 2 (some 0) = .ok (kdtree.mk 2 0 0 kdnode.leaf) ∧
    (kdtree_insert (kdtree.mk 2 0 0 kdnode.leaf) [0, 3] 1 false).1 = InsStatus.success ∧
    (kdtree_insert (kdtree_insert (kdtree.mk 2 0 0 kdnode.leaf) [0, 3] 1 false).2 [0, 5] 2 false).1 = InsStatus.success ∧
    (kdtree_insert (kdtree_insert (kdtree_insert (kdtree.mk 2 0 0 kdnode.leaf) [0, 3] 1 false).2 [0, 5] 2 false).2 [0, 9] 3 false).1 = InsStatus.success ∧
    (kdtree_insert (kdtree_insert (kdtree_insert (kdtree_insert (kdtree.mk 2 0 0 kdnode.leaf) [0, 3] 1 false).2 [0, 5] 2 false).2 [0, 9] 3 false).2 [0, 7] 4 false).1 = InsStatus.success ∧
    (kdtree_insert (kdtree_insert (kdtree_insert (kdtree_insert (kdtree_insert (kdtree.mk 2 0 0 kdnode.leaf) [0, 3] 1 false).2 [0, 5] 2 false).2 [0, 9] 3 false).2 [0, 7] 4 false).2 [0, 5] 99 false).1 = InsStatus.success ∧
    ((members (kdtree_insert (kdtree_insert (kdtree_insert (kdtree_insert (kdtree_insert (kdtree.mk 2 0 0 kdnode.leaf) [0, 3] 1 false).2 [0, 5] 2 false).2 [0, 9] 3 false).2 [0, 7] 4 false).2 [0, 5] 99 false).2.root).filter (fun p => p.c == [0, 5])).length = 2 :=
  ⟨rfl, rfl, rfl, rfl, rfl, rfl, rfl⟩

/-- C4 (amended): with duplicates disallowed, an insert whose descent
path meets a coordinate-for-coordinate equal node returns the duplicate
status and leaves the tree completely unchanged — no error, no count
change (rebalancing may move an equal-coordinate node off the descent
path, in which case the insert is accepted; see the counterexample).
With duplicates allowed, inserting the same coordinates under two
different uids succeeds twice and yields two independently removable
stored points distinguished by uid: both are stored, removing the first
succeeds and leaves the second stored, and removing the second then
succeeds as well. -/
theorem c4_duplicate_suppression (t : kdtree) (hV : ValidR t) (c : List Int)
    (hlen : c.length = t.ndims) (u u2 : Int) (hu : u ≠ u2) :
    (dupOnPath t.ndims c 0 t.root = true →
      kdtree_insert t c u false = (InsStatus.duplicate, t)) ∧
    ((kdtree_insert t c u true).1 = InsStatus.success ∧
     (kdtree_insert (kdtree_insert t c u true).2 c u2 true).1 = InsStatus.success ∧
     (⟨c, u⟩ : kdpoint) ∈ members (kdtree_insert (kdtree_insert t c u true).2 c u2 true).2.root ∧
     (⟨c, u2⟩ : kdpoint) ∈ members (kdtree_insert (kdtree_insert t c u true).2 c u2 true).2.root ∧
     (kdtree_remove (kdtree_insert (kdtree_insert t c u true).2 c u2 true).2 c u).1 = true ∧
     (⟨c, u2⟩ : kdpoint) ∈ members (kdtree_remove (kdtree_insert (kdtree_insert t c u true).2 c u2 true).2 c u).2.root ∧
     (kdtree_remove (kdtree_remove (kdtree_insert (kdtree_insert t c u true).2 c u2 true).2 c u).2 c u2).1 = true) := by
  have hV1 : ValidR (kdtree_insert t c u true).2 := ValidR_insert t c u true hV
  have hlen1 : c.length = ((kdtree_insert t c u true).2).ndims := by
    rw [(kdtree_insert_fields t c u true).1]
    exact hlen
  have hV2 : ValidR (kdtree_insert (kdtree_insert t c u true).2 c u2 true).2 := ValidR_insert (kdtree_insert t c u true).2 c u2 true hV1
  have hs1 : (kdtree_insert t c u true).1 = InsStatus.success :=
    kdtree_insert_dc_success t c u hlen
  have hs2 : (kdtree_insert (kdtree_insert t c u true).2 c u2 true).1 = InsStatus.success :=
    kdtree_insert_dc_success (kdtree_insert t c u true).2 c u2 hlen1
  have hm1 := (kdtree_insert_mems t c u true hs1).1
  have hm2 := (kdtree_insert_mems (kdtree_insert t c u true).2 c u2 true hs2).1
  have hmemu : (⟨c, u⟩ : kdpoint) ∈ members (kdtree_insert (kdtree_insert t c u true).2 c u2 true).2.root := by
    rw [← Multiset.mem_coe, hm2, hm1]
    exact Multiset.mem_cons_of_mem (Multiset.mem_cons_self _ _)
  have hmemu2 : (⟨c, u2⟩ : kdpoint) ∈ members (kdtree_insert (kdtree_insert t c u true).2 c u2 true).2.root := by
    rw [← Multiset.mem_coe, hm2]
    exact Multiset.mem_cons_self _ _
  obtain ⟨hrem1, hrmems, _⟩ := kdtree_remove_found (kdtree_insert (kdtree_insert t c u true).2 c u2 true).2 hV2 c u hmemu
  have hne : (⟨c, u2⟩ : kdpoint) ≠ (⟨c, u⟩ : kdpoint) := by
    intro he
    injection he with _ he2
    exact hu he2.symm
  have hmemu2r : (⟨c, u2⟩ : kdpoint) ∈ members (kdtree_remove (kdtree_insert (kdtree_insert t c u true).2 c u2 true).2 c u).2.root := by
    rw [← Multiset.mem_coe, hrmems]
    exact (Multiset.mem_erase_of_ne hne).mpr (Multiset.mem_coe.mpr hmemu2)
  have hV3 : ValidR (kdtree_remove (kdtree_insert (kdtree_insert t c u true).2 c u2 true).2 c u).2 := ValidR_remove (kdtree_insert (kdtree_insert t c u true).2 c u2 true).2 c u hV2
  obtain ⟨hrem2, _, _⟩ := kdtree_remove_found (kdtree_remove (kdtree_insert (kdtree_insert t c u true).2 c u2 true).2 c u).2 hV3 c u2 hmemu2r
  refine ⟨?_, hs1, hs2, hmemu, hmemu2, hrem1, hmemu2r, hrem2⟩
  intro hdup
  unfold kdtree_insert
  rw [if_neg (not_not_intro hlen),
    (kdInsert_none_iff t.ndims t.btol c u t.root 0).mpr hdup]

/-- Witness for C4 (amended) at a concrete one-point tree. -/
theorem c4_duplicate_suppression_witness :
    (dupOnPath (kdtree.mk 2 7 0 kdnode.leaf).ndims [1, 2] 0
        (kdtree.mk 2 7 0 kdnode.leaf).root = true →
      kdtree_insert (kdtree.mk 2 7 0 kdnode.leaf) [1, 2] 9 false
        = (InsStatus.duplicate, kdtree.mk 2 7 0 kdnode.leaf)) ∧
    ((kdtree_insert (kdtree.mk 2 7 0 kdnode.leaf) [1, 2] 9 true).1 = InsStatus.success ∧
     (kdtree_insert (kdtree_insert (kdtree.mk 2 7 0 kdnode.leaf) [1, 2] 9 true).2
        [1, 2] 10 true).1 = InsStatus.success ∧
     (⟨[1, 2], 9⟩ : kdpoint) ∈ members (kdtree_insert
        (kdtree_insert (kdtree.mk 2 7 0 kdnode.leaf) [1, 2] 9 true).2 [1, 2] 10 true).2.root ∧
     (⟨[1, 2], 10⟩ : kdpoint) ∈ members (kdtree_insert
        (kdtree_insert (kdtree.mk 2 7 0 kdnode.leaf) [1, 2] 9 true).2 [1, 2] 10 true).2.root ∧
     (kdtree_remove (kdtree_insert
        (kdtree_insert (kdtree.mk 2 7 0 kdnode.leaf) [1, 2] 9 true).2 [1, 2] 10 true).2
        [1, 2] 9).1 = true ∧
     (⟨[1, 2], 10⟩ : kdpoint) ∈ members (kdtree_remove (kdtree_insert
        (kdtree_insert (kdtree.mk 2 7 0 kdnode.leaf) [1, 2] 9 true).2 [1, 2] 10 true).2
        [1, 2] 9).2.root ∧
     (kdtree_remove (kdtree_remove (kdtree_insert
        (kdtree_insert (kdtree.mk 2 7 0 kdnode.leaf) [1, 2] 9 true).2 [1, 2] 10 true).2
        [1, 2] 9).2 [1, 2] 10).1 = true) :=
  c4_duplicate_suppression (kdtree.mk 2 7 0 kdnode.leaf) (by decide) [1, 2]
    (by decide) 9 10 (by decide)

/-- C5 (counterexample): with duplicates allowed the same
(coordinates, uid) pair can be stored twice; removing it then succeeds
and decrements the count, but the point is not absent from subsequent
searches — a knn query at the position still returns the pair —
contradicting the claim that a successful remove makes the point absent
from all subsequent searches. -/
theorem c5_remove_twin_counterexample :
    (kdtree_insert (kdtree.mk 1 7 0 kdnode.leaf) [0] 1 true).1 = InsStatus.success ∧
    (kdtree_insert (kdtree_insert (kdtree.mk 1 7 0 kdnode.leaf) [0] 1 true).2 [0] 1 true).1 = InsStatus.success ∧
    (kdtree_remove (kdtree_insert (kdtree_insert (kdtree.mk 1 7 0 kdnode.leaf) [0] 1 true).2 [0] 1 true).2 [0] 1).1 = true ∧
    (kdtree_remove (kdtree_insert (kdtree_insert (kdtree.mk 1 7 0 kdnode.leaf) [0] 1 true).2 [0] 1 true).2 [0] 1).2.count = 1 ∧
    kdtree_knn (kdtree_remove (kdtree_insert (kdtree_insert (kdtree.mk 1 7 0 kdnode.leaf) [0] 1 true).2 [0] 1 true).2 [0] 1).2 [0] 1 none = .ok [(1, 0)] :=
  ⟨rfl, rfl, rfl, rfl, rfl⟩

/-- C5 (amended): when a node matching coordinates and uid exactly is
stored, `kdtree_remove` succeeds, decreases the count by one and removes
exactly one matching node (the stored multiset loses one occurrence of
the pair); the pair becomes absent from the tree — and hence, since
every search result pair is drawn from a stored point, from all
subsequent searches — when it was stored exactly once (with duplicate
pairs a twin remains, see the counterexample).  When no node matches
both coordinates and uid (even if one matches the coordinates alone),
the remove reports not-found and returns the tree completely
unchanged. -/
theorem c5_remove_semantics (t : kdtree) (hV : ValidR t) (c : List Int) (u : Int) :
    ((⟨c, u⟩ : kdpoint) ∈ members t.root →
      (kdtree_remove t c u).1 = true ∧
      (kdtree_remove t c u).2.count + 1 = t.count ∧
      (members (kdtree_remove t c u).2.root : Multiset kdpoint)
        = ((members t.root : Multiset kdpoint)).erase ⟨c, u⟩ ∧
      (Multiset.count (⟨c, u⟩ : kdpoint) (members t.root : Multiset kdpoint) = 1 →
        (⟨c, u⟩ : kdpoint) ∉ members (kdtree_remove t c u).2.root) ∧
      (∀ (q : List Int) (k : Int) (skip : Option Int) (res : List (Int × Int)),
        kdtree_knn (kdtree_remove t c u).2 q k skip = .ok res →
        ∀ x ∈ res, ∃ m ∈ members (kdtree_remove t c u).2.root, x = pnd q m)) ∧
    ((⟨c, u⟩ : kdpoint) ∉ members t.root → kdtree_remove t c u = (false, t)) := by
  constructor
  · intro hmem
    obtain ⟨h1, h2, h3⟩ := kdtree_remove_found t hV c u hmem
    refine ⟨h1, h3, h2, ?_, ?_⟩
    · intro hcount hmem2
      have hmc : (⟨c, u⟩ : kdpoint) ∈ (members (kdtree_remove t c u).2.root : Multiset kdpoint) :=
        Multiset.mem_coe.mpr hmem2
      rw [h2] at hmc
      have hpos := Multiset.count_pos.mpr hmc
      rw [Multiset.count_erase_self, hcount] at hpos
      omega
    · intro q k skip res hok x hx
      have hV2 : ValidR (kdtree_remove t c u).2 := ValidR_remove t c u hV
      by_cases hk : k ≤ 0
      · unfold kdtree_knn at hok
        rw [if_pos hk] at hok
        cases hok
      · by_cases hq : q.length = ((kdtree_remove t c u).2).ndims
        · obtain ⟨res2, hok2, _, _, hmemx, _⟩ :=
            knn_spec (kdtree_remove t c u).2 hV2 q hq k (by omega) skip
          rw [hok] at hok2
          injection hok2 with hok2
          subst hok2
          rcases List.mem_map.mp (hmemx x hx) with ⟨m, hmfil, rfl⟩
          exact ⟨m, (List.mem_filter.mp hmfil).1, rfl⟩
        · unfold kdtree_knn at hok
          rw [if_neg hk, if_pos hq] at hok
          cases hok
  · exact kdtree_remove_notfound t c u

/-- Witness for C5 (amended) at a concrete one-point tree. -/
theorem c5_remove_semantics_witness :
    ((⟨[5], 3⟩ : kdpoint) ∈ members ((kdtree_insert (kdtree.mk 1 7 0 kdnode.leaf) [5] 3 true).2).root →
      (kdtree_remove (kdtree_insert (kdtree.mk 1 7 0 kdnode.leaf) [5] 3 true).2 [5] 3).1 = true ∧
      (kdtree_remove (kdtree_insert (kdtree.mk 1 7 0 kdnode.leaf) [5] 3 true).2 [5] 3).2.count + 1
        = (kdtree_insert (kdtree.mk 1 7 0 kdnode.leaf) [5] 3 true).2.count ∧
      (members (kdtree_remove (kdtree_insert (kdtree.mk 1 7 0 kdnode.leaf) [5] 3 true).2 [5] 3).2.root
          : Multiset kdpoint)
        = ((members (kdtree_insert (kdtree.mk 1 7 0 kdnode.leaf) [5] 3 true).2.root
          : Multiset kdpoint)).erase ⟨[5], 3⟩ ∧
      (Multiset.count (⟨[5], 3⟩ : kdpoint)
          (members (kdtree_insert (kdtree.mk 1 7 0 kdnode.leaf) [5] 3 true).2.root
            : Multiset kdpoint) = 1 →
        (⟨[5], 3⟩ : kdpoint) ∉ members
          (kdtree_remove (kdtree_insert (kdtree.mk 1 7 0 kdnode.leaf) [5] 3 true).2 [5] 3).2.root) ∧
      (∀ (q : List Int) (k : Int) (skip : Option Int) (res : List (Int × Int)),
        kdtree_knn (kdtree_remove (kdtree_insert (kdtree.mk 1 7 0 kdnode.leaf) [5] 3 true).2 [5] 3).2
            q k skip = .ok res →
        ∀ x ∈ res, ∃ m ∈ members
          (kdtree_remove (kdtree_insert (kdtree.mk 1 7 0 kdnode.leaf) [5] 3 true).2 [5] 3).2.root,
          x = pnd q m)) ∧
    ((⟨[5], 3⟩ : kdpoint) ∉ members (kdtree_insert (kdtree.mk 1 7 0 kdnode.leaf) [5] 3 true).2.root →
      kdtree_remove (kdtree_insert (kdtree.mk 1 7 0 kdnode.leaf) [5] 3 true).2 [5] 3
        = (false, (kdtree_insert (kdtree.mk 1 7 0 kdnode.leaf) [5] 3 true).2)) :=
  c5_remove_semantics (kdtree_insert (kdtree.mk 1 7 0 kdnode.leaf) [5] 3 true).2
    (by decide) [5] 3

/-- C7 (counterexample): after inserting a point at coordinates already
occupied by another uid (duplicates allowed, insert succeeds), an
immediate knn with k = 1 at those exact coordinates returns the earlier
point's uid 1 with squared distance 0 rather than the just-inserted
uid 2, contradicting the claim that the returned uid is the inserted
one. -/
theorem c7_roundtrip_counterexample :
    (kdtree_insert (kdtree.mk 1 7 0 kdnode.leaf) [0] 1 true).1 = InsStatus.success ∧
    (kdtree_insert (kdtree_insert (kdtree.mk 1 7 0 kdnode.leaf) [0] 1 true).2 [0] 2 true).1 = InsStatus.success ∧
    kdtree_knn (kdtree_insert (kdtree_insert (kdtree.mk 1 7 0 kdnode.leaf) [0] 1 true).2 [0] 2 true).2 [0] 1 none = .ok [(1, 0)] :=
  ⟨rfl, rfl, rfl⟩

/-- C7 (amended): after a successful insert of point p with uid u, an
immediate knn with k = 1 queried at exactly p's coordinates with no
skip uid returns squared distance 0, and the returned uid is u provided
no previously stored point shares exactly p's coordinates (a coincident
point may otherwise win the tie, see the counterexample). -/
theorem c7_roundtrip (t : kdtree) (hV : ValidR t) (c : List Int) (u : Int) (dc : Bool)
    (hins : (kdtree_insert t c u dc).1 = InsStatus.success)
    (hunique : ∀ m ∈ members t.root, m.c ≠ c) :
    kdtree_knn (kdtree_insert t c u dc).2 c 1 none = .ok [(u, 0)] := by
  have hlen : c.length = t.ndims := kdtree_insert_success_len t c u dc hins
  have hV2 : ValidR (kdtree_insert t c u dc).2 := ValidR_insert t c u dc hV
  have hlen2 : c.length = (kdtree_insert t c u dc).2.ndims := by
    rw [(kdtree_insert_fields t c u dc).1]
    exact hlen
  have hmems := (kdtree_insert_mems t c u dc hins).1
  have hmemc : (⟨c, u⟩ : kdpoint) ∈ members (kdtree_insert t c u dc).2.root := by
    rw [← Multiset.mem_coe, hmems]
    exact Multiset.mem_cons_self _ _
  obtain ⟨res, hok, hlenr, hsort, hmemx, hdists⟩ :=
    knn_spec (kdtree_insert t c u dc).2 hV2 c hlen2 1 (by omega) none
  have helig : eligList (kdtree_insert t c u dc).2 none
      = members (kdtree_insert t c u dc).2.root := by
    unfold eligList
    exact filter_elig_none _
  have hS0 : (0 : Int) ∈ (eligList (kdtree_insert t c u dc).2 none).map
      (fun m => sqdist m.c c) := by
    rw [helig]
    refine List.mem_map.mpr ⟨⟨c, u⟩, hmemc, ?_⟩
    exact sqdist_self c
  have hSnn : ∀ s ∈ (eligList (kdtree_insert t c u dc).2 none).map
      (fun m => sqdist m.c c), 0 ≤ s := by
    intro s hs
    rcases List.mem_map.mp hs with ⟨m, _, rfl⟩
    exact sqdist_nonneg m.c c
  have hSne : (eligList (kdtree_insert t c u dc).2 none).map
      (fun m => sqdist m.c c) ≠ [] := by
    intro h
    rw [h] at hS0
    cases hS0
  obtain ⟨mh, rest, hhead, hmh, hmin⟩ := isortI_head_min _ hSne
  have hmh0 : mh = 0 := le_antisymm (hmin 0 hS0) (hSnn mh hmh)
  have hdists2 : res.map Prod.snd = [0] := by
    rw [hdists, hhead, hmh0]
    rfl
  have hlen1 : res.length = 1 := by
    rw [hlenr]
    have h1 : 1 ≤ (eligList (kdtree_insert t c u dc).2 none).length := by
      rw [helig]
      cases hml : members (kdtree_insert t c u dc).2.root with
      | nil => rw [hml] at hmemc; cases hmemc
      | cons a l => simp [hml]
    simp only [Int.toNat_one]
    omega
  cases hres : res with
  | nil => rw [hres] at hlen1; simp at hlen1
  | cons x xs =>
    cases hxs : xs with
    | cons y ys =>
      rw [hres, hxs] at hlen1
      simp at hlen1
    | nil =>
      rw [hxs] at hres
      have hx2 : x.2 = 0 := by
        rw [hres] at hdists2
        injection hdists2
      have hxmem : x ∈ (eligList (kdtree_insert t c u dc).2 none).map (pnd c) := by
        apply hmemx
        rw [hres]
        exact List.mem_cons_self _ _
      rcases List.mem_map.mp hxmem with ⟨m, hmfil, hxe⟩
      rw [helig] at hmfil
      have hmdist : sqdist m.c c = 0 := by
        rw [← hxe] at hx2
        exact hx2
      have hmlen : m.c.length = c.length := by
        rw [hlen2]
        exact ((dimsb_iff _ _).mp hV2.2.2.2.1 m hmfil)
      have hmc : m.c = c := (sqdist_eq_zero m.c c hmlen).mp hmdist
      have hmeq : m = (⟨c, u⟩ : kdpoint) := by
        have hm2 : m ∈ (⟨c, u⟩ : kdpoint) ::ₘ (members t.root : Multiset kdpoint) := by
          rw [← hmems]
          exact Multiset.mem_coe.mpr hmfil
        rcases Multiset.mem_cons.mp hm2 with h | h
        · exact h
        · exact absurd hmc (hunique m (Multiset.mem_coe.mp h))
      rw [hok, hres]
      have hxval : x = (u, 0) := by
        rw [← hxe, hmeq]
        show (u, sqdist c c) = (u, 0)
        rw [sqdist_self]
      rw [hxval]

/-- Witness for C7 (amended): inserting into the empty tree and querying
back. -/
theorem c7_roundtrip_witness :
    kdtree_knn (kdtree_insert (kdtree.mk 1 7 0 kdnode.leaf) [3] 4 true).2 [3] 1 none
      = .ok [(4, 0)] :=
  c7_roundtrip (kdtree.mk 1 7 0 kdnode.leaf) (by decide) [3] 4 true (by decide) (by decide)

end KD